import Mathlib

/-!
# Verification of the spec-up-t external-reference validator and tref preparer

This file gives a shallow embedding, in Lean 4, of the algorithmic core of the
spec-up-t repository: the external-reference validation script
(`validate-external-refs`: content normalization, Levenshtein similarity,
term extraction from fetched pages, the fetch cache, reference classification,
indicator insertion, line diffing) and the build-time `prepare-tref.js`
markdown rewriter.  JavaScript strings are modelled as `String`/`List Char`,
JS `Map`s as insertion-ordered association lists, the DOM as a
first-child/next-sibling tree, and JS numbers (for the similarity ratio) as
`ℚ`.  Browser primitives that the scripts call (HTML parsing, text extraction
from markup) are modelled by explicit tree/scanner functions and noted as such
in the corresponding doc comments.
-/

set_option autoImplicit false

namespace SpecUpT

/-! ## Character classes used by the validator's regular expressions -/
/-- The character class matched by JavaScript's `\s` (as used in
`replace(/\s+/g, ' ')` in `normalizeContent` and in `String.prototype.trim`):
ASCII whitespace, NBSP, OGHAM space, the U+2000–200A space separators,
line/paragraph separators, narrow NBSP, medium mathematical space,
ideographic space, and the ZWNBSP/BOM U+FEFF. -/
def jsWs (c : Char) : Bool :=
  decide (c.toNat ∈ ([0x9, 0xa, 0xb, 0xc, 0xd, 0x20, 0xa0, 0x1680, 0x2028,
    0x2029, 0x202f, 0x205f, 0x3000, 0xfeff] : List Nat)) ||
  decide (0x2000 ≤ c.toNat ∧ c.toNat ≤ 0x200a)

/-- The zero-width characters removed by `normalizeContent`'s
`replace(/[​-‍﻿]/g, '')`: the zero-width space/non-joiner/joiner
range U+200B–200D and the ZWNBSP U+FEFF. -/
def zeroWidth (c : Char) : Bool :=
  decide (0x200b ≤ c.toNat ∧ c.toNat ≤ 0x200d) || decide (c.toNat = 0xfeff)

/-- The punctuation class of `normalizeContent`'s
`replace(/\s*([.,;:!?])\s*/g, '$1 ')`. -/
def normPunct (c : Char) : Bool :=
  decide (c ∈ (['.', ',', ';', ':', '!', '?'] : List Char))

/-- Lowercasing of a character list, modelling `String.prototype.toLowerCase`
(restricted to the ASCII case mapping of `Char.toLower`). -/
def lowerL (s : List Char) : List Char := s.map Char.toLower

/-- JS `String.prototype.trim`: drop `\s` characters from both ends. -/
def trimL (s : List Char) : List Char :=
  ((s.dropWhile jsWs).reverse.dropWhile jsWs).reverse

/-! ## Levenshtein distance (`levenshteinDistance` in the validator)

The source builds the classic dynamic-programming matrix row by row:
`matrix[i]` starts as `[i]`, row `0` is `0..str1.length`, and
`matrix[i][j] = Math.min(matrix[i-1][j-1]+1, matrix[i][j-1]+1, matrix[i-1][j]+1)`
unless the compared characters agree, in which case the diagonal is copied.
`levRowAux` is the inner `for j` loop (producing the tail of row `i` from row
`i-1`), `levRows` is the outer `for i` loop, and `levenshteinDistance` reads
off `matrix[str2.length][str1.length]`. -/
/-- Inner loop of the DP: given the character `c` (= `str2.charAt(i-1)`), the
remaining characters of `str1`, the remaining part of the previous row
(starting at column `j-1`), and the value already computed for column `j-1` of
the current row, produce the entries of the current row from column `j` on. -/
def levRowAux (c : Char) : List Char → List Nat → Nat → List Nat
  | a :: as, p0 :: p1 :: ps, cur =>
    let v := if a = c then p0 else min (min (p0 + 1) (cur + 1)) (p1 + 1)
    v :: levRowAux c as (p1 :: ps) v
  | _, _, _ => []

/-- Outer loop of the DP: fold the characters of `str2` over the row,
prepending the edge value `i` (`matrix[i] = [i]`) to each new row. -/
def levRows (s1 : List Char) : List Char → List Nat → Nat → List Nat
  | [], row, _ => row
  | c :: cs, row, i => levRows s1 cs ((i + 1) :: levRowAux c s1 row (i + 1)) (i + 1)

/-- `levenshteinDistance(str1, str2)` from the validator: run the DP starting
from row `0 = [0, 1, …, str1.length]` and return the bottom-right entry
`matrix[str2.length][str1.length]`. -/
def levenshteinDistance (str1 str2 : List Char) : Nat :=
  (levRows str1 str2 (List.range (str1.length + 1)) 0).getLastD 0

/-- The textbook recursive Levenshtein distance (unit-cost substitution,
insertion and deletion), used as the specification that the row-by-row DP of
`levenshteinDistance` is proved to compute. -/
def levRec : List Char → List Char → Nat
  | [], bs => bs.length
  | _ :: as, [] => as.length + 1
  | a :: as, b :: bs =>
    if a = b then levRec as bs
    else 1 + min (levRec as bs) (min (levRec (a :: as) bs) (levRec as (b :: bs)))
termination_by as bs => as.length + bs.length
decreasing_by all_goals (simp_arith)

/-- `calculateSimilarity(str1, str2)` from the validator, with the JS number
result modelled as a rational: `1` for identical strings, `0` if exactly one
is empty, otherwise `(longer.length − levenshteinDistance(shorter, longer)) /
longer.length`. -/
def calculateSimilarity (str1 str2 : String) : ℚ :=
  if str1 = str2 then 1
  else if str1 = "" ∨ str2 = "" then 0
  else
    let longer := if str2.length < str1.length then str1 else str2
    let shorter := if str2.length < str1.length then str2 else str1
    if longer.length = 0 then 1
    else ((longer.length : ℚ) - levenshteinDistance shorter.data longer.data) /
      (longer.length : ℚ)

/-- The row of DP values for a fixed (reversed) second-string prefix `t`:
entry `j` is the distance between the reversed `j`-th prefix of the remaining
first string (on top of the already-consumed reversed prefix `p`) and `t`. -/
def rowSpec : List Char → List Char → List Char → List Nat
  | [], p, t => [levRec p t]
  | a :: as, p, t => levRec p t :: rowSpec as (a :: p) t

/-! ## Content normalization (`normalizeContent` in the validator)

The source parses the HTML fragment into a detached `div` and reads its
`textContent`, then lowercases, strips zero-width characters, collapses
whitespace runs, normalizes punctuation spacing and trims.  The browser's
text extraction is modelled by `extractTextGo`, a scanner that drops
everything between `<` and `>`; the four `replace`/`trim` steps are
translated literally. -/
/-- Model of `tempDiv.innerHTML = html; tempDiv.textContent`: markup between
`<` and `>` is dropped, everything else is kept.  The `Bool` state records
whether the scanner is inside a tag. -/
def extractTextGo : Bool → List Char → List Char
  | _, [] => []
  | false, c :: cs => if c = '<' then extractTextGo true cs else c :: extractTextGo false cs
  | true, c :: cs => if c = '>' then extractTextGo false cs else extractTextGo true cs

/-- Text extraction from an HTML fragment string (outside-tag start state). -/
def extractTextL (s : List Char) : List Char := extractTextGo false s

/-- `replace(/[​-‍﻿]/g, '')`: remove zero-width characters. -/
def removeZW (s : List Char) : List Char := s.filter (fun c => !zeroWidth c)

/-- `replace(/\s+/g, ' ')`, written with a state flag (`true` while inside a
whitespace run) so that the recursion is structural: each maximal run of `\s`
characters becomes a single space. -/
def collapseWsGo : Bool → List Char → List Char
  | _, [] => []
  | prevWs, c :: cs =>
    if jsWs c then
      (if prevWs then collapseWsGo true cs else ' ' :: collapseWsGo true cs)
    else c :: collapseWsGo false cs

/-- Whitespace-run collapsing on a whole string. -/
def collapseWsL (s : List Char) : List Char := collapseWsGo false s

/-- `replace(/\s*([.,;:!?])\s*/g, '$1 ')`: each punctuation character from the
class, together with the whitespace run before it and after it, becomes the
punctuation character followed by one space.  `skip` is `true` while the
scanner is swallowing the trailing `\s*` of a match; `pend` holds (reversed)
the whitespace run read so far, which is emitted verbatim if no punctuation
follows it. -/
def punctFixGo (skip : Bool) (pend : List Char) : List Char → List Char
  | [] => pend.reverse
  | c :: cs =>
    if normPunct c then c :: ' ' :: punctFixGo true [] cs
    else if jsWs c then
      (if skip then punctFixGo true pend cs else punctFixGo false (c :: pend) cs)
    else pend.reverse ++ c :: punctFixGo false [] cs

/-- The pure text-normalization pipeline of `normalizeContent` (everything
after the DOM text extraction): lowercase, remove zero-width characters,
collapse whitespace, normalize punctuation spacing, trim. -/
def normalizeTextL (s : List Char) : List Char :=
  trimL (punctFixGo false [] (collapseWsL (removeZW (lowerL s))))

/-- `normalizeContent(html)` from the validator.  The `if` models the
`if (!html) return ''` guard (the empty string is falsy in JS), and
`extractTextL` models the `tempDiv` text extraction. -/
def normalizeContent (html : String) : String :=
  if html = "" then "" else ⟨normalizeTextL (extractTextL html.data)⟩

/-! ## Line diffing (`findTextDifferences` in the validator) -/
/-- `split(/\n+/)`: split on maximal runs of newline characters.  The flag is
`true` immediately after a newline (inside a run); the accumulator holds the
current token reversed. -/
def splitNlGo (flag : Bool) (acc : List Char) : List Char → List (List Char)
  | [] => [acc.reverse]
  | c :: cs =>
    if c = '\n' then
      (if flag then splitNlGo true [] cs else acc.reverse :: splitNlGo true [] cs)
    else splitNlGo false (c :: acc) cs

/-- `text.split(/\n+/)` on a string. -/
def splitNlRuns (s : String) : List String :=
  (splitNlGo false [] s.data).map String.mk

/-- A non-blank line in the sense of `filter(line => line.trim())`. -/
def lineKept (l : String) : Bool := !(trimL l.data).isEmpty

/-- `array.join('\n')`. -/
def joinNl : List String → String
  | [] => ""
  | [x] => x
  | x :: xs => x ++ "\n" ++ joinNl xs

/-- Result record of `findTextDifferences`. -/
structure TextDiff where
  oldUnique : String
  newUnique : String
  hasDifferences : Bool
deriving Repr, DecidableEq

/-- `findTextDifferences(text1, text2)` from the validator: split both texts
into non-blank lines, keep the lines of each that the other does not contain
(`includes`), and render placeholders when a side has no unique lines. -/
def findTextDifferences (text1 text2 : String) : TextDiff :=
  let lines1 := (splitNlRuns text1).filter lineKept
  let lines2 := (splitNlRuns text2).filter lineKept
  let oldU := lines1.filter (fun l => !(lines2.contains l))
  let newU := lines2.filter (fun l => !(lines1.contains l))
  { oldUnique := if oldU.length > 0 then joinNl oldU else "(no removed content)"
    newUnique := if newU.length > 0 then joinNl newU else "(no added content)"
    hasDifferences := oldU.length > 0 || newU.length > 0 }

/-! ## Reference classification (`validateXref` / `validateTref`)

The two functions differ only in how the indicator is inserted into the DOM;
their classification logic is identical.  They are embedded as functions from
the cached entry and the fetched live data to the outcome of the indicator
they create (`none` when no indicator is created: entry unmatched, URL
missing from the live map, or a valid reference with valid indicators
disabled).  Debug logging and the `toFixed` percentage formatting are
presentation only and are not modelled; the `changed` outcome carries the
similarity ratio itself. -/
/-- A live term entry extracted from a fetched page
(`{content, rawContent, termId}` in `extractTermsFromHtml`). -/
structure LiveTerm where
  content : String
  rawContent : String
  termId : String
deriving Repr, DecidableEq

/-- A term mapping as produced by `extractTermsFromHtml`: a JS `Map` from
lowercased term names to entries, modelled as an insertion-ordered
association list with unique keys maintained by `jsSet`. -/
abbrev TermMap := List (String × LiveTerm)

/-- `Map.prototype.get`: the value at the first (unique) matching key. -/
def jsGet {α : Type} (m : List (String × α)) (k : String) : Option α :=
  (m.find? (fun p => p.1 == k)).map (·.2)

/-- `Map.prototype.set`: overwrite in place if the key exists, else append. -/
def jsSet {α : Type} (m : List (String × α)) (k : String) (v : α) :
    List (String × α) :=
  if m.any (fun p => p.1 == k) then
    m.map (fun p => if p.1 == k then (k, v) else p)
  else m ++ [(k, v)]

/-- A cached reference-index entry (one element of `allXTrefs.xtrefs`,
respectively of `xtrefs-data.json` for the build-time rewriter). -/
structure Xtref where
  externalSpec : String
  term : String
  ghPageUrl : String
  content : String
  commitHash : String
deriving Repr, DecidableEq

/-- `String.prototype.toLowerCase` on a `String` (ASCII case mapping). -/
def lowerStr (s : String) : String := ⟨lowerL s.data⟩

/-- `extractTextFromHtml(html)` from the validator: plain text of an HTML
fragment (modelled by the same tag-stripping scanner as `normalizeContent`'s
text extraction, without any further normalization). -/
def extractTextFromHtml (html : String) : String := ⟨extractTextL html.data⟩

/-- The outcome of validating one reference, i.e. which indicator
`createIndicator` is called with. -/
inductive Outcome where
  | error
  | missing
  | changed (oldContent newContent : String) (similarity : ℚ)
  | valid
deriving Repr, DecidableEq

/-- The configuration surface of `VALIDATOR_CONFIG` used by classification. -/
structure ValidatorConfig where
  showValidIndicators : Bool
  cacheTimeout : Nat
  similarityThreshold : ℚ
deriving Repr, DecidableEq

/-- The literal `VALIDATOR_CONFIG` defaults from the source. -/
def VALIDATOR_CONFIG : ValidatorConfig :=
  { showValidIndicators := false
    cacheTimeout := 5 * 60 * 1000
    similarityThreshold := 95 / 100 }

/-- `validateXref(element, liveData, cachedXtref)`: classification of one
xref.  `liveData` maps each gh-page URL to `null` (fetch failed) or to the
extracted term mapping; an absent key means the fetch never resolved.  The
returned value is the indicator outcome inserted after the element. -/
def validateXref (cfg : ValidatorConfig)
    (liveData : List (String × Option TermMap)) (cachedXtref : Option Xtref) :
    Option Outcome :=
  match cachedXtref with
  | none => none
  | some x =>
    if x.ghPageUrl = "" then none
    else
      match jsGet liveData x.ghPageUrl with
      | none => none
      | some none => some .error
      | some (some liveTerms) =>
        match jsGet liveTerms (lowerStr x.term) with
        | none => some .missing
        | some liveTerm =>
          let cachedNormalized := normalizeContent x.content
          let liveNormalized := normalizeContent liveTerm.rawContent
          let similarity := calculateSimilarity cachedNormalized liveNormalized
          if similarity < cfg.similarityThreshold then
            some (.changed
              (if x.content = "" then "No cached content"
                else extractTextFromHtml x.content)
              (if liveTerm.content = "" then "No live content" else liveTerm.content)
              similarity)
          else if cfg.showValidIndicators then some .valid
          else none

/-- `validateTref(element, liveData, cachedXtref)`: classification of one
tref, translated from its own source; the body mirrors `validateXref`, with
`insertIndicatorIntoTref` as the insertion primitive instead. -/
def validateTref (cfg : ValidatorConfig)
    (liveData : List (String × Option TermMap)) (cachedXtref : Option Xtref) :
    Option Outcome :=
  match cachedXtref with
  | none => none
  | some x =>
    if x.ghPageUrl = "" then none
    else
      match jsGet liveData x.ghPageUrl with
      | none => none
      | some none => some .error
      | some (some liveTerms) =>
        match jsGet liveTerms (lowerStr x.term) with
        | none => some .missing
        | some liveTerm =>
          let cachedNormalized := normalizeContent x.content
          let liveNormalized := normalizeContent liveTerm.rawContent
          let similarity := calculateSimilarity cachedNormalized liveNormalized
          if similarity < cfg.similarityThreshold then
            some (.changed
              (if x.content = "" then "No cached content"
                else extractTextFromHtml x.content)
              (if liveTerm.content = "" then "No live content" else liveTerm.content)
              similarity)
          else if cfg.showValidIndicators then some .valid
          else none

/-! ## DOM model and term extraction (`extractTermsFromHtml`)

`extractTermsFromHtml` parses the fetched page with `DOMParser` and walks the
resulting element tree.  The parser itself is a browser primitive; the
document is therefore modelled directly as a node forest in
first-child/next-sibling form (`Dom.elem tag id classes child next`), which
makes sibling walks (`nextElementSibling`) and pre-order queries
(`querySelectorAll`, `querySelector`) structural.  Tag names are kept
lowercase (the source compares `tagName === 'DD'` against the parser's
uppercase normalization; the model normalizes to lowercase instead). -/
/-- A DOM forest: a node list in first-child/next-sibling form. -/
inductive Dom where
  | nil
  | text (s : String) (next : Dom)
  | elem (tag : String) (id : String) (classes : List String) (child : Dom) (next : Dom)
deriving Repr, DecidableEq

/-- One element node without its following siblings (what a collected
`querySelectorAll` result element contributes). -/
structure DomNode where
  tag : String
  id : String
  classes : List String
  child : Dom
deriving Repr, DecidableEq

/-- `textContent` of a forest: concatenation of all text node data. -/
def textContentF : Dom → String
  | .nil => ""
  | .text s next => s ++ textContentF next
  | .elem _ _ _ ch next => textContentF ch ++ textContentF next

/-- Space-separated join (for the serialized `class` attribute). -/
def joinSpace : List String → String
  | [] => ""
  | [x] => x
  | x :: xs => x ++ " " ++ joinSpace xs

/-- Serialized attribute string of the model's two attributes. -/
def attrsStr (i : String) (cls : List String) : String :=
  (if i = "" then "" else " id=\x22" ++ i ++ "\x22") ++
  (if cls = [] then "" else " class=\x22" ++ joinSpace cls ++ "\x22")

/-- `innerHTML` of a forest in the serialization model. -/
def innerHtmlF : Dom → String
  | .nil => ""
  | .text s next => s ++ innerHtmlF next
  | .elem t i cls ch next =>
    "<" ++ t ++ attrsStr i cls ++ ">" ++ innerHtmlF ch ++ "</" ++ t ++ ">" ++
      innerHtmlF next

/-- `outerHTML` of one element node in the serialization model. -/
def nodeHtml (d : DomNode) : String :=
  "<" ++ d.tag ++ attrsStr d.id d.classes ++ ">" ++ innerHtmlF d.child ++
    "</" ++ d.tag ++ ">"

/-- `textContent` of one element node. -/
def nodeText (d : DomNode) : String := textContentF d.child

/-- Does a character-list start with the given pattern? (`id^="term:"`). -/
def startsWithL : List Char → List Char → Bool
  | [], _ => true
  | _ :: _, [] => false
  | p :: ps, c :: cs => p == c && startsWithL ps cs

/-- `dt.querySelector('[id^="term:"]')`, reduced to the id it returns: the
first element in pre-order whose id starts with `term:`. -/
def firstTermSpanId : Dom → Option String
  | .nil => none
  | .text _ next => firstTermSpanId next
  | .elem _ i _ ch next =>
    if startsWithL "term:".data i.data then some i
    else
      match firstTermSpanId ch with
      | some r => some r
      | none => firstTermSpanId next

/-- `String.prototype.split(sep)` for a single-character separator (used for
`termId.split(':')`): every occurrence separates, empty segments kept. -/
def splitCharGo (sep : Char) (acc : List Char) : List Char → List (List Char)
  | [] => [acc.reverse]
  | c :: cs =>
    if c = sep then acc.reverse :: splitCharGo sep [] cs
    else splitCharGo sep (c :: acc) cs

/-- The `while (sibling && sibling.tagName === 'DD')` walk from a `dt`'s
following siblings: text nodes are invisible to `nextElementSibling`; the
walk stops at the first non-`dd` element; `dd`s carrying the
`meta-info-content-wrapper` class are skipped but do not stop the walk. -/
def collectDds : Dom → List DomNode
  | .nil => []
  | .text _ next => collectDds next
  | .elem t i cls ch next =>
    if t = "dd" then
      if cls.contains "meta-info-content-wrapper" then collectDds next
      else ⟨t, i, cls, ch⟩ :: collectDds next
    else []

/-- `querySelectorAll('dl.terms-and-definitions-list dt')` in document
order, each `dt` paired with its following-sibling forest: pre-order walk
carrying the flag "some ancestor is a `dl.terms-and-definitions-list`". -/
def collectDts (inside : Bool) : Dom → List (DomNode × Dom)
  | .nil => []
  | .text _ next => collectDts inside next
  | .elem t i cls ch next =>
    (if inside && t == "dt" then [(⟨t, i, cls, ch⟩, next)] else []) ++
      collectDts (inside || (t == "dl" && cls.contains "terms-and-definitions-list")) ch ++
      collectDts inside next

/-- JS `trim` on a `String`. -/
def trimStr (s : String) : String := ⟨trimL s.data⟩

/-- Processing of one matched `dt`: extract the term id from the first
descendant span with a `term:` id (skip the `dt` if there is none), key by
the lowercased last colon-segment, and build the entry from the collected
`dd` siblings (`textContent`s joined by newline and trimmed; `outerHTML`s
joined by newline). -/
def termEntryOf (dt : DomNode × Dom) : Option (String × LiveTerm) :=
  match firstTermSpanId dt.1.child with
  | none => none
  | some termId =>
    let termName : String := ⟨(splitCharGo ':' [] termId.data).getLastD []⟩
    let dds := collectDds dt.2
    let definitionContent := joinNl (dds.map nodeText)
    let rawContent := joinNl (dds.map nodeHtml)
    some (lowerStr termName, ⟨trimStr definitionContent, rawContent, termId⟩)

/-- `extractTermsFromHtml(html)` on the parsed document: fold the matched
`dt`s into the term `Map`. -/
def extractTermsFromDoc (doc : Dom) : TermMap :=
  (collectDts false doc).foldl
    (fun m dt =>
      match termEntryOf dt with
      | none => m
      | some (k, e) => jsSet m k e) []

/-- Does the forest contain an element with the given tag? -/
def domHasTag (t : String) : Dom → Bool
  | .nil => false
  | .text _ next => domHasTag t next
  | .elem t' _ _ ch next => t' == t || domHasTag t ch || domHasTag t next

/-- Forest concatenation (splicing siblings). -/
def appendDom : Dom → Dom → Dom
  | .nil, e => e
  | .text s n, e => .text s (appendDom n e)
  | .elem t i c ch n, e => .elem t i c ch (appendDom n e)

/-- A document with no `dt`/`dd` structure. -/
def docNoTerms : Dom := .elem "div" "" [] (.text "Just some content" .nil) .nil

/-- A terms list with two term entries whose ids lowercase to the same key. -/
def docDupTerms : Dom :=
  .elem "dl" "" ["terms-and-definitions-list"]
    (.elem "dt" "" [] (.elem "span" "term:spec:Foo" [] .nil .nil)
      (.elem "dd" "" [] (.text "first" .nil)
        (.elem "dt" "" [] (.elem "span" "term:spec:foo" [] .nil .nil)
          (.elem "dd" "" [] (.text "second" .nil) .nil))))
    .nil

/-- A terms list with two term entries with distinct keys. -/
def docTwoTerms : Dom :=
  .elem "dl" "" ["terms-and-definitions-list"]
    (.elem "dt" "" [] (.elem "span" "term:spec:alpha" [] .nil .nil)
      (.elem "dd" "" [] (.text "A def" .nil)
        (.elem "dt" "" [] (.elem "span" "term:spec:beta" [] .nil .nil)
          (.elem "dd" "" [] (.text "B def" .nil) .nil))))
    .nil

/-! ## Fetch cache (`fetchExternalSpec`)

The async function is embedded as a state-passing function on an explicit
cache value: `now` stands for `Date.now()` and the network's behavior for
this request is an explicit parameter, consulted only when the cache misses.
Parsing of the response body is the browser's `DOMParser`, so a successful
response carries the parsed document directly. -/
/-- One fetch-cache entry: `{timestamp, data}`. -/
structure CacheEntry where
  timestamp : Nat
  data : TermMap
deriving Repr, DecidableEq

/-- How the network resolves one request: a parsed page, a non-2xx response
(`!response.ok`), or a thrown network/parse exception. -/
inductive FetchOutcome where
  | ok (doc : Dom)
  | httpError (status : Nat)
  | netError
deriving Repr, DecidableEq

/-- Result of one `fetchExternalSpec` call: the returned term mapping
(`none` models `null`), the cache state after the call, and whether a
network request was issued. -/
structure FetchResult where
  result : Option TermMap
  cache : List (String × CacheEntry)
  fetched : Bool
deriving Repr, DecidableEq

/-- `fetchExternalSpec(ghPageUrl, specName)` from the validator: return the
cached mapping when the entry is younger than `cacheTimeout`; otherwise
fetch, returning `null` (and leaving the cache alone) on a non-2xx response
or an exception, and extracting and caching the term mapping on success. -/
def fetchExternalSpec (cfg : ValidatorConfig) (cache : List (String × CacheEntry))
    (now : Nat) (ghPageUrl : String) (resp : FetchOutcome) : FetchResult :=
  let doFetch : FetchResult :=
    match resp with
    | .ok doc =>
      let terms := extractTermsFromDoc doc
      { result := some terms, cache := jsSet cache ghPageUrl ⟨now, terms⟩, fetched := true }
    | .httpError _ => { result := none, cache := cache, fetched := true }
    | .netError => { result := none, cache := cache, fetched := true }
  match jsGet cache ghPageUrl with
  | some entry =>
    if now - entry.timestamp < cfg.cacheTimeout then
      { result := some entry.data, cache := cache, fetched := false }
    else doFetch
  | none => doFetch

/-- A concrete cache with one entry, for the C3/C4 witnesses. -/
def cacheOne : List (String × CacheEntry) :=
  [("https://x.github.io/s/", ⟨100, [("t", ⟨"c", "<dd>c</dd>", "term:s:t"⟩)]⟩)]

/-! ## Indicator insertion (`insertIndicatorAfterElement` / `insertIndicatorIntoTref`)

`insertIndicatorAfterElement` mutates the anchor's parent by inserting the
indicator as the immediate next sibling, unless the next element sibling
already carries the indicator class; it is embedded as a function on the
anchor's following-sibling forest.  `insertIndicatorIntoTref` finds the first
`span.term-external` descendant of the `dt` and appends the indicator to it,
unless that span already has an indicator-class descendant; it is embedded as
a function on the `dt`'s child forest. -/
/-- `VALIDATOR_CONFIG.classes.indicator`. -/
def indicatorClass : String := "external-ref-validation-indicator"

/-- `nextElementSibling` on a following-sibling forest: the first element
node, skipping text nodes. -/
def firstElem : Dom → Option DomNode
  | .nil => none
  | .text _ next => firstElem next
  | .elem t i cls ch _ => some ⟨t, i, cls, ch⟩

/-- Attach an element node at the head of a sibling forest. -/
def consNode (n : DomNode) (next : Dom) : Dom := .elem n.tag n.id n.classes n.child next

/-- `appendChild`: attach an element node at the end of a sibling forest. -/
def appendNode : Dom → DomNode → Dom
  | .nil, n => consNode n .nil
  | .text s next, n => .text s (appendNode next n)
  | .elem t i cls ch next, n => .elem t i cls ch (appendNode next n)

/-- Does the forest contain an element carrying the given class? -/
def hasClassDesc (c : String) : Dom → Bool
  | .nil => false
  | .text _ next => hasClassDesc c next
  | .elem _ _ cls ch next =>
    cls.contains c || hasClassDesc c ch || hasClassDesc c next

/-- Number of elements carrying the indicator class in a forest. -/
def countIndF : Dom → Nat
  | .nil => 0
  | .text _ next => countIndF next
  | .elem _ _ cls ch next =>
    (if cls.contains indicatorClass then 1 else 0) + countIndF ch + countIndF next

/-- `insertIndicatorAfterElement(element, indicator)`, acting on the
element's following-sibling forest: skip if the next element sibling already
carries the indicator class, else insert immediately after the element. -/
def insertIndicatorAfterElement (next : Dom) (ind : DomNode) : Dom :=
  match firstElem next with
  | some e => if e.classes.contains indicatorClass then next else consNode ind next
  | none => consNode ind next

/-- Core of `insertIndicatorIntoTref` on a forest: find the first
`span.term-external` in pre-order and append the indicator to its children
unless an indicator-class descendant already exists there; the `Bool`
reports whether the span was found (stopping the search). -/
def insertIntoTrefF (ind : DomNode) : Dom → Dom × Bool
  | .nil => (.nil, false)
  | .text s next =>
    let r := insertIntoTrefF ind next
    (.text s r.1, r.2)
  | .elem t i cls ch next =>
    if t == "span" && cls.contains "term-external" then
      let ch' := if hasClassDesc indicatorClass ch then ch else appendNode ch ind
      (.elem t i cls ch' next, true)
    else
      match insertIntoTrefF ind ch with
      | (ch', true) => (.elem t i cls ch' next, true)
      | (_, false) =>
        let r := insertIntoTrefF ind next
        (.elem t i cls ch r.1, r.2)

/-- `insertIndicatorIntoTref(dtElement, indicator)`: the `dt`'s child forest
after the call (no change when no `span.term-external` exists). -/
def insertIndicatorIntoTref (dtChild : Dom) (ind : DomNode) : Dom :=
  (insertIntoTrefF ind dtChild).1

/-- A concrete indicator node, xref sibling forest and tref child forest for
the C8 witness. -/
def wInd : DomNode := ⟨"span", "", [indicatorClass, "external-ref-error"], .nil⟩

/-- Sibling forest following a concrete xref anchor. -/
def wNext : Dom := .text " " (.elem "a" "" ["x-term-reference"] .nil .nil)

/-- Child forest of a concrete tref `dt`. -/
def wTref : Dom := .elem "span" "" ["term-external"] (.text "my term" .nil) .nil

/-! ## Build-time transclusion rewriter (`prepare-tref.js`)

`prepareTref` walks a directory of markdown files; for each file it splits
the content into lines once, and for every line starting with `[[tref:` that
the regex `/\[\[tref:(.*?)\]\]/` matches, it looks up the exact
`(externalSpec, term)` pair in `xtrefs-data.json` and overwrites the whole
file with the rewritten content.  A failed lookup returns `null`, so the
subsequent `.content` access throws; the per-file `try/catch` logs and moves
on to the next file while the loop over the remaining lines of this file is
abandoned (writes already performed stand).  The file system is modelled by
explicit content values: `processFile` maps a file's original content to the
final on-disk content (`none` = never written) plus the caught-error flag. -/
/-- `getLocalXTrefContent(externalSpec, term)`: content and commit hash of
the first index entry matching the exact pair, or `null`. -/
def getLocalXTrefContent (xtrefs : List Xtref) (externalSpec term : String) :
    Option (String × String) :=
  (xtrefs.find? (fun x => x.externalSpec == externalSpec && x.term == term)).map
    (fun x => (x.content, x.commitHash))

/-- The lazy group of `/\[\[tref:(.*?)\]\]/` after the opener: the characters
before the first `]]`, or `none` when no `]]` follows. -/
def trefInner : List Char → Option (List Char)
  | ']' :: ']' :: _ => some []
  | c :: cs => (trefInner cs).map (fun r => c :: r)
  | [] => none

/-- `line.match(/\[\[tref:(.*?)\]\]/)` on a line that the source has already
checked with `startsWith('[[tref:')`: `match[0]` and the captured group
(leftmost match, which starts at position 0 on such lines). -/
def trefMatch (line : String) : Option (String × String) :=
  if startsWithL "[[tref:".data line.data then
    match trefInner (line.data.drop 7) with
    | some inner => some (⟨"[[tref:".data ++ inner ++ "]]".data⟩, ⟨inner⟩)
    | none => none
  else none

/-- Scan for the closing `]]:` of a `[[def: ...]]:` marker; `.` in the regex
does not match newlines, so the search fails at a line break.  Returns the
remainder after the closing. -/
def defClose : List Char → Option (List Char)
  | ']' :: ']' :: ':' :: rest => some rest
  | '\n' :: _ => none
  | _ :: cs => defClose cs
  | [] => none

/-- `content.replace(/\[\[def: .*?\]\]:/g, '')`, as a left-to-right scanner
with fuel (the input length bounds the number of steps). -/
def stripDefsGo : Nat → List Char → List Char
  | 0, s => s
  | _, [] => []
  | fuel + 1, c :: cs =>
    if startsWithL "[[def: ".data (c :: cs) then
      match defClose ((c :: cs).drop 7) with
      | some rest => stripDefsGo fuel rest
      | none => c :: stripDefsGo fuel cs
    else c :: stripDefsGo fuel cs

/-- Def-marker removal on a `String`. -/
def stripDefs (s : String) : String := ⟨stripDefsGo s.data.length s.data⟩

/-- The literal regenerated-content notice written by `prepareTref`. -/
def trefNotice : String :=
  "<!-- This is a copy of the saved remote text. Remove it if you like. It is automatically (re)generated --><span class=\x22transcluded-xref-term\x22>transcluded xref</span>"

/-- `data.split('\n')` into the lines the rewriter iterates over. -/
def splitLines (s : String) : List String :=
  (splitCharGo '\n' [] s.data).map (fun l => ⟨l⟩)

/-- What processing one line does: `none` — not a rewriting line (no marker
or no `]]`); `some none` — marker matched but the lookup returned `null`
(also when the marker has no comma, making the term `undefined`), so the
`.content` access throws; `some (some out)` — the file is overwritten with
`out`. -/
def lineAction (xtrefs : List Xtref) (line : String) : Option (Option String) :=
  match trefMatch line with
  | none => none
  | some (m0, inner) =>
    let result := (splitCharGo ',' [] inner.data).map (fun l => trimL l)
    match result.get? 1 with
    | none => some none
    | some t =>
      match getLocalXTrefContent xtrefs ⟨result.getD 0 []⟩ ⟨t⟩ with
      | none => some none
      | some (content, hash) =>
        some (some (m0 ++ "\n\n" ++ trefNotice ++ "\n\n~ Commit Hash: " ++
          hash ++ stripDefs content))

/-- The per-file loop: `acc` is the content most recently written to disk
(`none` = untouched).  A throwing line aborts the loop with the error flag
set; each successful match overwrites the whole file. -/
def processFileGo (xtrefs : List Xtref) :
    List String → Option String → Option String × Bool
  | [], acc => (acc, false)
  | l :: ls, acc =>
    match lineAction xtrefs l with
    | none => processFileGo xtrefs ls acc
    | some none => (acc, true)
    | some (some out) => processFileGo xtrefs ls (some out)

/-- Processing of one markdown file by `prepareTref`. -/
def processFile (xtrefs : List Xtref) (data : String) : Option String × Bool :=
  processFileGo xtrefs (splitLines data) none

/-- `prepareTref` over the markdown files of the directory tree (name and
original content, in traversal order): files are processed independently,
the per-file `try/catch` containing any error. -/
def prepareTref (xtrefs : List Xtref) (files : List (String × String)) :
    List (String × (Option String × Bool)) :=
  files.map (fun f => (f.1, processFile xtrefs f.2))

/-- Index and file for the C9 witness. -/
def C9xtrefs : List Xtref := [⟨"a", "t", "", "Cc [[def: x]]: y", "hh"⟩]

/-- A file with one matching marker line between plain lines. -/
def C9data : String := "intro\n[[tref:a,t]]\nrest"

/-- Index and file for the C9 counterexample: two matching marker lines. -/
def C9dup : List Xtref := [⟨"a", "t", "", "C1", "h1"⟩, ⟨"a", "u", "", "C2", "h2"⟩]

/-- A file with two matching marker lines. -/
def C9dupData : String := "[[tref:a,t]]\n[[tref:a,u]]"

/-- The on-disk content after `prepareTref` on `C9dupData`. -/
def C9dupFinal : String :=
  "[[tref:a,u]]" ++ "\n\n" ++ trefNotice ++ "\n\n~ Commit Hash: " ++ "h2" ++ "C2"

/-- Index and file for the C10 counterexample and witness. -/
def C10xtrefs : List Xtref := [⟨"a", "t", "", "C1", "h1"⟩]

/-- A file whose first marker line resolves and whose second does not. -/
def C10data : String := "[[tref:a,t]]\n[[tref:b,u]]"

/-! ## Case/whitespace invariance of normalization (C7)

"Two HTML inputs that differ only in letter case and in the extent of
whitespace runs" is formalized as the equivalence closure `CaseWsEqv` of
three local rewrites: changing one character to a case-variant (same
`Char.toLower` image), duplicating/deleting a whitespace character inside a
whitespace run, and replacing one whitespace character by another.
Whitespace here is ASCII whitespace (a subset of the `\s` class collapsed by
the source, chosen so that "whitespace" does not include U+FEFF, which
`normalizeContent` deletes outright rather than collapsing). -/
/-- ASCII whitespace, the "whitespace" of the C7 relation. -/
def asciiWs (c : Char) : Bool :=
  decide (c ∈ ([' ', '\t', '\n', '\x0b', '\x0c', '\r'] : List Char))

/-- Two strings differ only in letter case and in the extent of whitespace
runs: equivalence closure of single-character case changes, duplication or
deletion of a whitespace character next to another, and replacement of one
whitespace character by another. -/
inductive CaseWsEqv : List Char → List Char → Prop where
  | refl (s : List Char) : CaseWsEqv s s
  | symm {a b : List Char} : CaseWsEqv a b → CaseWsEqv b a
  | trans {a b c : List Char} : CaseWsEqv a b → CaseWsEqv b c → CaseWsEqv a c
  | caseStep (l₁ l₂ : List Char) (c c' : Char) (h : c.toLower = c'.toLower) :
      CaseWsEqv (l₁ ++ c :: l₂) (l₁ ++ c' :: l₂)
  | wsDup (l₁ l₂ : List Char) (w w' : Char) (hw : asciiWs w = true)
      (hw' : asciiWs w' = true) :
      CaseWsEqv (l₁ ++ w :: w' :: l₂) (l₁ ++ w :: l₂)
  | wsSwap (l₁ l₂ : List Char) (w w' : Char) (hw : asciiWs w = true)
      (hw' : asciiWs w' = true) :
      CaseWsEqv (l₁ ++ w :: l₂) (l₁ ++ w' :: l₂)

/-- Final scanner state of the text extraction after a chunk of input. -/
def extractStateGo : Bool → List Char → Bool
  | st, [] => st
  | false, c :: cs =>
    if c = '<' then extractStateGo true cs else extractStateGo false cs
  | true, c :: cs =>
    if c = '>' then extractStateGo false cs else extractStateGo true cs

/-! ### Correctness of the DP with respect to `levRec` -/
theorem levRec_nil_right (as : List Char) : levRec as [] = as.length := by
  cases as <;> simp [levRec]

theorem levRec_nil_left (bs : List Char) : levRec [] bs = bs.length := by
  simp [levRec]

/-- The cons-cons defining equation of `levRec`, packaged for rewriting. -/
theorem levRec_cons_cons (a b : Char) (as bs : List Char) :
    levRec (a :: as) (b :: bs) =
      if a = b then levRec as bs
      else 1 + min (levRec as bs) (min (levRec (a :: as) bs) (levRec as (b :: bs))) := by
  rw [levRec]

theorem levRowAux_rowSpec (c : Char) :
    ∀ (rest p t : List Char),
      levRec p (c :: t) :: levRowAux c rest (rowSpec rest p t) (levRec p (c :: t)) =
        rowSpec rest p (c :: t) := by
  intro rest
  induction rest with
  | nil => intro p t; simp [rowSpec, levRowAux]
  | cons a as ih =>
    intro p t
    have hv : (if a = c then levRec p t
        else min (min (levRec p t + 1) (levRec p (c :: t) + 1)) (levRec (a :: p) t + 1)) =
        levRec (a :: p) (c :: t) := by
      rw [levRec_cons_cons]
      by_cases h : a = c
      · simp [h]
      · simp only [h, if_false]
        omega
    cases as with
    | nil =>
      simp only [rowSpec, levRowAux, hv]
    | cons a' as' =>
      simp only [rowSpec] at ih ⊢
      simp only [levRowAux, hv]
      have := ih (a :: p) t
      simp only [rowSpec] at this
      rw [this]

theorem levRows_rowSpec (s1 : List Char) :
    ∀ (cs t : List Char),
      levRows s1 cs (rowSpec s1 [] t) t.length = rowSpec s1 [] (cs.reverse ++ t) := by
  intro cs
  induction cs with
  | nil => intro t; simp [levRows]
  | cons c cs' ih =>
    intro t
    rw [levRows]
    have hlen : t.length + 1 = levRec [] (c :: t) := by rw [levRec]; simp
    rw [hlen, levRowAux_rowSpec c s1 [] t, ← hlen]
    have hih := ih (c :: t)
    simp only [List.length_cons] at hih
    rw [hih]
    simp [List.reverse_cons, List.append_assoc]

theorem rowSpec_nil (s1 : List Char) :
    ∀ (p : List Char), rowSpec s1 p [] = List.range' p.length (s1.length + 1) := by
  induction s1 with
  | nil => intro p; simp [rowSpec, levRec_nil_right, List.range']
  | cons a as ih =>
    intro p
    simp only [rowSpec, levRec_nil_right, List.length_cons]
    rw [ih (a :: p)]
    simp [List.range'_succ]

theorem rowSpec_getLastD (t : List Char) :
    ∀ (rest p : List Char) (d : Nat),
      (rowSpec rest p t).getLastD d = levRec (rest.reverse ++ p) t := by
  intro rest
  induction rest with
  | nil => intro p d; simp [rowSpec]
  | cons a as ih =>
    intro p d
    simp only [rowSpec, List.getLastD_cons]
    rw [ih (a :: p)]
    simp [List.reverse_cons, List.append_assoc]

/-- The DP of the source computes `levRec` on the reversed inputs. -/
theorem levenshteinDistance_eq_levRec_reverse (s1 s2 : List Char) :
    levenshteinDistance s1 s2 = levRec s1.reverse s2.reverse := by
  unfold levenshteinDistance
  have h0 : List.range (s1.length + 1) = rowSpec s1 [] [] := by
    rw [rowSpec_nil s1 []]
    simp [List.range_eq_range']
  rw [h0]
  have := levRows_rowSpec s1 s2 []
  simp only [List.length_nil, List.append_nil] at this
  rw [this, rowSpec_getLastD]
  simp

/-- Appending one character to the end of both arguments satisfies the same
recurrence as consing to the front: the step lemma behind reversal
invariance of the Levenshtein distance. -/
theorem levRec_append (a b : Char) :
    ∀ (n : Nat) (as bs : List Char), as.length + bs.length ≤ n →
      levRec (as ++ [a]) (bs ++ [b]) =
        if a = b then levRec as bs
        else 1 + min (levRec as bs) (min (levRec (as ++ [a]) bs) (levRec as (bs ++ [b]))) := by
  intro n
  induction n with
  | zero =>
    intro as bs h
    have ha : as = [] := by cases as <;> simp_all
    have hb : bs = [] := by cases bs <;> simp_all
    subst ha; subst hb
    simp only [List.nil_append]
    exact levRec_cons_cons a b [] []
  | succ n ih =>
    intro as bs h
    match as, bs with
    | [], [] =>
      simp only [List.nil_append]
      exact levRec_cons_cons a b [] []
    | [], b' :: bs' =>
      have h3 := ih [] bs' (by simp only [List.length_nil, List.length_cons] at h ⊢; omega)
      simp only [List.nil_append, List.cons_append] at h3 ⊢
      rw [levRec_cons_cons a b' [] (bs' ++ [b]), levRec_cons_cons a b' [] bs']
      simp only [levRec_nil_left, List.length_append, List.length_nil,
        List.length_cons] at h3 ⊢
      split_ifs at h3 ⊢ <;> omega
    | a' :: as', [] =>
      have h2 := ih as' [] (by simp only [List.length_nil, List.length_cons] at h ⊢; omega)
      simp only [List.nil_append, List.cons_append] at h2 ⊢
      rw [levRec_cons_cons a' b (as' ++ [a]) [], levRec_cons_cons a' b as' []]
      simp only [levRec_nil_right, List.length_append, List.length_nil,
        List.length_cons] at h2 ⊢
      split_ifs at h2 ⊢ <;> omega
    | a' :: as', b' :: bs' =>
      have h1 := ih as' bs' (by simp only [List.length_cons] at h ⊢; omega)
      have h2 := ih (a' :: as') bs' (by simp only [List.length_cons] at h ⊢; omega)
      have h3 := ih as' (b' :: bs') (by simp only [List.length_cons] at h ⊢; omega)
      simp only [List.cons_append] at h2 h3 ⊢
      rw [levRec_cons_cons a' b' (as' ++ [a]) (bs' ++ [b]),
        levRec_cons_cons a' b' as' bs',
        levRec_cons_cons a' b' (as' ++ [a]) bs',
        levRec_cons_cons a' b' as' (bs' ++ [b])]
      set x1 := levRec as' bs' with hx1
      set x2 := levRec (a' :: as') bs' with hx2
      set x3 := levRec as' (b' :: bs') with hx3
      set x4 := levRec (as' ++ [a]) bs' with hx4
      set x5 := levRec as' (bs' ++ [b]) with hx5
      set x6 := levRec (as' ++ [a]) (bs' ++ [b]) with hx6
      set x7 := levRec (a' :: (as' ++ [a])) bs' with hx7
      set x8 := levRec (as' ++ [a]) (b' :: bs') with hx8
      set x9 := levRec (a' :: as') (bs' ++ [b]) with hx9
      set x10 := levRec as' (b' :: (bs' ++ [b])) with hx10
      set x11 := levRec (a' :: (as' ++ [a])) (bs' ++ [b]) with hx11
      set x12 := levRec (as' ++ [a]) (b' :: (bs' ++ [b])) with hx12
      clear hx1 hx2 hx3 hx4 hx5 hx6 hx7 hx8 hx9 hx10 hx11 hx12 ih h
      clear_value x1 x2 x3 x4 x5 x6 x7 x8 x9 x10 x11 x12
      split_ifs at h1 h2 h3 ⊢
      · exact h1
      · exact h1
      · subst h1 h2 h3; rfl
      · subst h1 h2 h3
        simp only [min_add_add_left]
        congr 1
        congr 1
        ac_rfl

/-- The Levenshtein distance is invariant under reversing both strings. -/
theorem levRec_reverse :
    ∀ (n : Nat) (as bs : List Char), as.length + bs.length ≤ n →
      levRec as.reverse bs.reverse = levRec as bs := by
  intro n
  induction n with
  | zero =>
    intro as bs h
    have ha : as = [] := by cases as <;> simp_all
    have hb : bs = [] := by cases bs <;> simp_all
    subst ha; subst hb; rfl
  | succ n ih =>
    intro as bs h
    match as, bs with
    | [], bs => simp [levRec]
    | a :: as', [] => simp [levRec_nil_right, levRec]
    | a :: as', b :: bs' =>
      have h1 := ih as' bs' (by simp only [List.length_cons] at h ⊢; omega)
      have h2 := ih (a :: as') bs' (by simp only [List.length_cons] at h ⊢; omega)
      have h3 := ih as' (b :: bs') (by simp only [List.length_cons] at h ⊢; omega)
      rw [List.reverse_cons] at h2
      rw [List.reverse_cons] at h3
      rw [List.reverse_cons, List.reverse_cons,
        levRec_append a b (as'.reverse.length + bs'.reverse.length)
          as'.reverse bs'.reverse (by simp), h1, h2, h3]
      exact (levRec_cons_cons a b as' bs').symm

/-- The source DP agrees with the textbook recursive Levenshtein distance. -/
theorem levenshteinDistance_eq_levRec (s1 s2 : List Char) :
    levenshteinDistance s1 s2 = levRec s1 s2 := by
  rw [levenshteinDistance_eq_levRec_reverse]
  exact levRec_reverse (s1.length + s2.length) s1 s2 le_rfl

/-- The Levenshtein distance is at most the length of the longer string. -/
theorem levRec_le_max :
    ∀ (n : Nat) (as bs : List Char), as.length + bs.length ≤ n →
      levRec as bs ≤ max as.length bs.length := by
  intro n
  induction n with
  | zero =>
    intro as bs h
    have ha : as = [] := by cases as <;> simp_all
    have hb : bs = [] := by cases bs <;> simp_all
    subst ha; subst hb; simp [levRec]
  | succ n ih =>
    intro as bs h
    match as, bs with
    | [], bs => simp [levRec]
    | a :: as', [] => simp [levRec_nil_right]
    | a :: as', b :: bs' =>
      have h1 := ih as' bs' (by simp at h ⊢; omega)
      have h2 := ih (a :: as') bs' (by simp at h ⊢; omega)
      have h3 := ih as' (b :: bs') (by simp at h ⊢; omega)
      rw [levRec]
      by_cases hab : a = b
      · simp only [if_pos hab]
        simp only [List.length_cons] at *
        omega
      · simp only [if_neg hab]
        simp only [List.length_cons] at *
        omega

theorem string_data_length (s : String) : s.data.length = s.length := rfl

theorem string_length_ne_zero {s : String} (h : s ≠ "") : s.length ≠ 0 := by
  intro h0
  apply h
  cases s with
  | mk d =>
    have hd : d = [] := List.length_eq_zero.mp h0
    subst hd
    rfl

/-- Bounds for the generic DP branch of `calculateSimilarity`. -/
theorem lev_ratio_mem_unit (s l : List Char) (hsl : s.length ≤ l.length)
    (h0 : l.length ≠ 0) :
    0 ≤ ((l.length : ℚ) - ((levRec s l : ℕ) : ℚ)) / (l.length : ℚ) ∧
      ((l.length : ℚ) - ((levRec s l : ℕ) : ℚ)) / (l.length : ℚ) ≤ 1 := by
  have hd := levRec_le_max (s.length + l.length) s l le_rfl
  have hdl : levRec s l ≤ l.length := by omega
  have h0q : (0 : ℚ) < l.length := by
    have := Nat.pos_of_ne_zero h0
    exact_mod_cast this
  have hdq : ((levRec s l : ℕ) : ℚ) ≤ (l.length : ℚ) := by exact_mod_cast hdl
  have hdq0 : (0 : ℚ) ≤ ((levRec s l : ℕ) : ℚ) := by positivity
  constructor
  · apply div_nonneg (by linarith) h0q.le
  · rw [div_le_one h0q]
    linarith

/-- The similarity ratio always lies in the unit interval. -/
theorem calculateSimilarity_mem_unit (a b : String) :
    0 ≤ calculateSimilarity a b ∧ calculateSimilarity a b ≤ 1 := by
  simp only [calculateSimilarity]
  split_ifs with h1 h2 hlt h3 h3
  · constructor <;> norm_num
  · constructor <;> norm_num
  · constructor <;> norm_num
  · rw [levenshteinDistance_eq_levRec]
    have := lev_ratio_mem_unit b.data a.data
      (by rw [string_data_length, string_data_length]; exact hlt.le)
      (by rw [string_data_length]; exact h3)
    rw [string_data_length] at this
    exact this
  · constructor <;> norm_num
  · rw [levenshteinDistance_eq_levRec]
    have := lev_ratio_mem_unit a.data b.data
      (by rw [string_data_length, string_data_length]; exact le_of_not_lt hlt)
      (by rw [string_data_length]; exact h3)
    rw [string_data_length] at this
    exact this

/-- **C2.** `calculateSimilarity` returns `1` when the strings are equal
(including both empty), `0` when exactly one is empty, and otherwise
`(longerLength − editDistance) / longerLength` where the edit distance is the
(classic-recurrence) Levenshtein distance between the shorter and the longer
string; the result always lies in `[0, 1]`. -/
theorem claim_C2_calculateSimilarity (a b : String) :
    (a = b → calculateSimilarity a b = 1) ∧
    ((a = "" ∧ b ≠ "") ∨ (a ≠ "" ∧ b = "") → calculateSimilarity a b = 0) ∧
    (a ≠ b → a ≠ "" → b ≠ "" →
      calculateSimilarity a b =
        (((max a.length b.length : ℕ) : ℚ) -
            ((levRec (if b.length < a.length then b.data else a.data)
                (if b.length < a.length then a.data else b.data) : ℕ) : ℚ)) /
          ((max a.length b.length : ℕ) : ℚ)) ∧
    0 ≤ calculateSimilarity a b ∧ calculateSimilarity a b ≤ 1 := by
  refine ⟨?_, ?_, ?_, calculateSimilarity_mem_unit a b⟩
  · intro h
    simp [calculateSimilarity, h]
  · rintro (⟨ha, hb⟩ | ⟨ha, hb⟩)
    · subst ha
      have hne : "" ≠ b := fun h => hb h.symm
      rw [calculateSimilarity, if_neg hne, if_pos (Or.inl rfl)]
    · subst hb
      have hne : a ≠ "" := ha
      rw [calculateSimilarity, if_neg hne, if_pos (Or.inr rfl)]
  · intro hne ha hb
    have hor : ¬(a = "" ∨ b = "") := by
      rintro (h | h)
      · exact ha h
      · exact hb h
    simp only [calculateSimilarity, if_neg hne, if_neg hor]
    by_cases hlt : b.length < a.length
    · simp only [if_pos hlt, if_neg (string_length_ne_zero ha)]
      rw [levenshteinDistance_eq_levRec]
      have hmax : max a.length b.length = a.length := max_eq_left hlt.le
      rw [hmax]
    · simp only [if_neg hlt, if_neg (string_length_ne_zero hb)]
      rw [levenshteinDistance_eq_levRec]
      have hmax : max a.length b.length = b.length := max_eq_right (le_of_not_lt hlt)
      rw [hmax]

/-- Witness for C2 at concrete inputs. -/
theorem claim_C2_calculateSimilarity_witness :
    calculateSimilarity "abc" "abc" = 1 ∧
    calculateSimilarity "" "x" = 0 ∧
    calculateSimilarity "abcd" "abcf" = 3 / 4 ∧
    0 ≤ calculateSimilarity "ab" "xy" := by
  refine ⟨(claim_C2_calculateSimilarity "abc" "abc").1 rfl,
    (claim_C2_calculateSimilarity "" "x").2.1 (Or.inl ⟨rfl, by decide⟩),
    ?_, ((claim_C2_calculateSimilarity "ab" "xy").2.2.2).1⟩
  have h := (claim_C2_calculateSimilarity "abcd" "abcf").2.2.1
    (by decide) (by decide) (by decide)
  have hd : levRec "abcd".data "abcf".data = 1 := by
    rw [← levenshteinDistance_eq_levRec]
    decide
  have hcond : ¬(("abcf" : String).length < ("abcd" : String).length) := by decide
  rw [h, if_neg hcond, if_neg hcond, hd,
    (by decide : max ("abcd" : String).length ("abcf" : String).length = 4)]
  norm_num

/-- **C6.** `findTextDifferences` splits each text on runs of newlines,
discards blank lines, and returns `oldUnique` equal to the lines of `text1`
not occurring among the lines of `text2` joined by newlines (or the literal
placeholder `"(no removed content)"` when that set is empty), symmetrically
`newUnique` with the `"(no added content)"` placeholder, and
`hasDifferences` is true exactly when at least one of the two line sets is
non-empty. -/
theorem claim_C6_findTextDifferences (t1 t2 : String) :
    (findTextDifferences t1 t2).oldUnique =
      (if ((splitNlRuns t1).filter lineKept).filter
            (fun l => decide (l ∉ (splitNlRuns t2).filter lineKept)) = [] then
          "(no removed content)"
        else joinNl (((splitNlRuns t1).filter lineKept).filter
            (fun l => decide (l ∉ (splitNlRuns t2).filter lineKept)))) ∧
    (findTextDifferences t1 t2).newUnique =
      (if ((splitNlRuns t2).filter lineKept).filter
            (fun l => decide (l ∉ (splitNlRuns t1).filter lineKept)) = [] then
          "(no added content)"
        else joinNl (((splitNlRuns t2).filter lineKept).filter
            (fun l => decide (l ∉ (splitNlRuns t1).filter lineKept)))) ∧
    ((findTextDifferences t1 t2).hasDifferences = true ↔
      ((splitNlRuns t1).filter lineKept).filter
          (fun l => decide (l ∉ (splitNlRuns t2).filter lineKept)) ≠ [] ∨
      ((splitNlRuns t2).filter lineKept).filter
          (fun l => decide (l ∉ (splitNlRuns t1).filter lineKept)) ≠ []) := by
  have hrw : ∀ (L M : List String),
      L.filter (fun l => !(M.contains l)) = L.filter (fun l => decide (l ∉ M)) := by
    intro L M
    apply List.filter_congr
    intro x _
    rw [show (M.contains x) = decide (x ∈ M) from List.elem_eq_mem x M]
    simp
  have hif : ∀ (L : List String) (s : String),
      (if L.length > 0 then joinNl L else s) = (if L = [] then s else joinNl L) := by
    intro L s
    rcases L with _ | ⟨x, xs⟩ <;> simp
  simp only [findTextDifferences, hrw]
  refine ⟨hif _ _, hif _ _, ?_⟩
  simp [List.length_pos]

/-- **C1.** For a reference with a matched cached entry having a non-empty
`ghPageUrl`: a `null` live mapping classifies as Error; a fetched mapping
with no entry under the lowercased cached term name classifies as Missing; a
present term whose normalized cached/live similarity is strictly below the
threshold classifies as Changed carrying the plain-text old/new content and
the similarity; otherwise the outcome is Valid and an indicator is produced
only if `showValidIndicators` is enabled (default off, with default
threshold `0.95`).  `validateTref` classifies identically. -/
theorem claim_C1_classification (cfg : ValidatorConfig)
    (liveData : List (String × Option TermMap)) (x : Xtref)
    (hurl : x.ghPageUrl ≠ "") :
    (jsGet liveData x.ghPageUrl = some none →
      validateXref cfg liveData (some x) = some .error) ∧
    (∀ m, jsGet liveData x.ghPageUrl = some (some m) →
      jsGet m (lowerStr x.term) = none →
      validateXref cfg liveData (some x) = some .missing) ∧
    (∀ m t, jsGet liveData x.ghPageUrl = some (some m) →
      jsGet m (lowerStr x.term) = some t →
      calculateSimilarity (normalizeContent x.content) (normalizeContent t.rawContent) <
        cfg.similarityThreshold →
      validateXref cfg liveData (some x) = some (.changed
        (if x.content = "" then "No cached content" else extractTextFromHtml x.content)
        (if t.content = "" then "No live content" else t.content)
        (calculateSimilarity (normalizeContent x.content)
          (normalizeContent t.rawContent)))) ∧
    (∀ m t, jsGet liveData x.ghPageUrl = some (some m) →
      jsGet m (lowerStr x.term) = some t →
      ¬ (calculateSimilarity (normalizeContent x.content) (normalizeContent t.rawContent) <
        cfg.similarityThreshold) →
      validateXref cfg liveData (some x) =
        (if cfg.showValidIndicators then some .valid else none)) ∧
    validateTref cfg liveData (some x) = validateXref cfg liveData (some x) ∧
    VALIDATOR_CONFIG.similarityThreshold = 95 / 100 ∧
    VALIDATOR_CONFIG.showValidIndicators = false := by
  refine ⟨?_, ?_, ?_, ?_, ?_, rfl, rfl⟩
  · intro h
    simp only [validateXref, if_neg hurl, h]
  · intro m hm ht
    simp only [validateXref, if_neg hurl, hm, ht]
  · intro m t hm ht hsim
    simp only [validateXref, if_neg hurl, hm, ht, if_pos hsim]
  · intro m t hm ht hsim
    simp only [validateXref, if_neg hurl, hm, ht, if_neg hsim]
  · simp only [validateXref, validateTref]

/-- Witness for C1 at concrete inputs: a failed fetch yields an Error
indicator, and a fetched page missing the term yields a Missing indicator. -/
theorem claim_C1_classification_witness :
    validateXref VALIDATOR_CONFIG [("https://x.github.io/s/", none)]
      (some ⟨"s", "term", "https://x.github.io/s/", "<p>c</p>", "h"⟩) = some .error ∧
    validateXref VALIDATOR_CONFIG [("https://x.github.io/s/", some [])]
      (some ⟨"s", "term", "https://x.github.io/s/", "<p>c</p>", "h"⟩) = some .missing := by
  constructor
  · exact (claim_C1_classification VALIDATOR_CONFIG _ _ (by decide)).1 rfl
  · exact (claim_C1_classification VALIDATOR_CONFIG _ _ (by decide)).2.1 [] rfl rfl

/-- A document with no `dt` anywhere yields no collected term elements. -/
theorem collectDts_eq_nil :
    ∀ (d : Dom) (inside : Bool), domHasTag "dt" d = false → collectDts inside d = [] := by
  intro d
  induction d with
  | nil => intro inside _; rfl
  | text s next ih =>
    intro inside h
    simp only [domHasTag] at h
    simp only [collectDts, ih inside h]
  | elem t i cls ch next ih1 ih2 =>
    intro inside h
    simp only [domHasTag, Bool.or_eq_false_iff] at h
    obtain ⟨⟨ht, hch⟩, hnext⟩ := h
    simp only [collectDts, ht, Bool.and_false, if_false, ih1 _ hch, ih2 _ hnext]
    simp

/-- The extraction fold only looks at the `dt`s that yield a term entry. -/
theorem extractTerms_foldl_filterMap :
    ∀ (l : List (DomNode × Dom)) (m : TermMap),
      l.foldl (fun m dt =>
        match termEntryOf dt with
        | none => m
        | some (k, e) => jsSet m k e) m =
      (l.filterMap termEntryOf).foldl (fun m p => jsSet m p.1 p.2) m := by
  intro l
  induction l with
  | nil => intro m; rfl
  | cons dt rest ih =>
    intro m
    rw [List.foldl_cons, List.filterMap_cons]
    cases h : termEntryOf dt with
    | none => rw [ih]
    | some p =>
      cases p with
      | mk k e => rw [List.foldl_cons, ih]

/-- Folding `Map.set` over entries with pairwise-distinct keys, none of which
is already present, grows the map by exactly the number of entries. -/
theorem foldl_jsSet_length :
    ∀ (ps : List (String × LiveTerm)) (m : TermMap),
      (ps.map Prod.fst).Nodup →
      (∀ p ∈ ps, ∀ q ∈ m, q.1 ≠ p.1) →
      (ps.foldl (fun m p => jsSet m p.1 p.2) m).length = m.length + ps.length := by
  intro ps
  induction ps with
  | nil => intro m _ _; simp
  | cons p rest ih =>
    intro m hnd hfresh
    obtain ⟨k, v⟩ := p
    have hany : m.any (fun q => q.1 == k) = false := by
      rw [List.any_eq_false]
      intro q hq
      simp only [beq_iff_eq]
      exact hfresh (k, v) (by simp) q hq
    rw [List.foldl_cons]
    have hset : jsSet m k v = m ++ [(k, v)] := by
      simp only [jsSet, hany]
      simp
    rw [hset]
    simp only [List.map_cons, List.nodup_cons] at hnd
    rw [ih (m ++ [(k, v)]) hnd.2 ?fresh]
    · simp only [List.length_append, List.length_cons, List.length_nil]
      omega
    case fresh =>
      intro p hp q hq
      rcases List.mem_append.mp hq with hq | hq
      · exact hfresh p (by simp [hp]) q hq
      · simp only [List.mem_singleton] at hq
        subst hq
        intro hkp
        apply hnd.1
        have hkp' : k = p.1 := hkp
        rw [hkp']
        exact List.mem_map_of_mem Prod.fst hp

/-- Splicing a `meta-info-content-wrapper` `dd` anywhere into a sibling
forest leaves the collected definition `dd`s unchanged. -/
theorem collectDds_meta_skip (i : String) (cls : List String) (ch : Dom)
    (hm : cls.contains "meta-info-content-wrapper" = true) :
    ∀ (d1 d2 : Dom),
      collectDds (appendDom d1 (Dom.elem "dd" i cls ch d2)) =
        collectDds (appendDom d1 d2) := by
  intro d1
  induction d1 with
  | nil =>
    intro d2
    simp only [appendDom, collectDds, hm]
    simp
  | text s next ih =>
    intro d2
    simp only [appendDom, collectDds, ih]
  | elem t i' cls' ch' next ih1 ih2 =>
    intro d2
    simp only [appendDom, collectDds]
    by_cases ht : t = "dd"
    · subst ht
      by_cases hmeta : cls'.contains "meta-info-content-wrapper" = true <;>
        simp [hmeta, ih2]
    · simp [ht]

/-- **C5 (amended).** `extractTermsFromHtml` returns the empty map for a
document with no `dt` term structure; for a terms-and-definitions list whose
term entries (`dt`s carrying a `term:` id span) have pairwise-distinct
lowercased keys, the map has exactly one entry per term entry (without the
distinctness assumption later duplicates overwrite earlier ones, see the
counterexample); and a sibling `dd` carrying the meta-info wrapper class
contributes nothing to a term's captured content or `rawContent`, wherever it
sits among the definition siblings. -/
theorem claim_C5_extractTerms (doc : Dom) (dt : DomNode) (d1 d2 ch : Dom)
    (i : String) (cls : List String) :
    (domHasTag "dt" doc = false → extractTermsFromDoc doc = []) ∧
    ((((collectDts false doc).filterMap termEntryOf).map Prod.fst).Nodup →
      (extractTermsFromDoc doc).length =
        ((collectDts false doc).filterMap termEntryOf).length) ∧
    (cls.contains "meta-info-content-wrapper" = true →
      termEntryOf (dt, appendDom d1 (Dom.elem "dd" i cls ch d2)) =
        termEntryOf (dt, appendDom d1 d2)) := by
  refine ⟨?_, ?_, ?_⟩
  · intro h
    simp only [extractTermsFromDoc, collectDts_eq_nil doc false h, List.foldl_nil]
  · intro hnd
    rw [extractTermsFromDoc, extractTerms_foldl_filterMap,
      foldl_jsSet_length _ [] hnd (by intro p _ q hq; cases hq)]
    simp
  · intro hm
    simp only [termEntryOf, collectDds_meta_skip i cls ch hm d1 d2]

/-- C5 as literally stated is false on the code: a terms-and-definitions
list containing two term entries can yield a map of size one, because the
map is keyed by the lowercased term name and the second `Map.set` overwrites
the first. -/
theorem claim_C5_counterexample :
    ((collectDts false docDupTerms).filterMap termEntryOf).length = 2 ∧
    (extractTermsFromDoc docDupTerms).length = 1 := by
  decide

/-- Witness for the amended C5 at concrete documents. -/
theorem claim_C5_extractTerms_witness :
    extractTermsFromDoc docNoTerms = [] ∧
    (extractTermsFromDoc docTwoTerms).length = 2 ∧
    termEntryOf (⟨"dt", "", [], Dom.elem "span" "term:spec:t" [] .nil .nil⟩,
        appendDom (Dom.elem "dd" "" [] (.text "a" .nil) .nil)
          (Dom.elem "dd" "" ["meta-info-content-wrapper"] (.text "META" .nil)
            (Dom.elem "dd" "" [] (.text "b" .nil) .nil))) =
      termEntryOf (⟨"dt", "", [], Dom.elem "span" "term:spec:t" [] .nil .nil⟩,
        appendDom (Dom.elem "dd" "" [] (.text "a" .nil) .nil)
          (Dom.elem "dd" "" [] (.text "b" .nil) .nil)) := by
  have h1 := claim_C5_extractTerms docNoTerms ⟨"dt", "", [], Dom.nil⟩ .nil .nil .nil "" []
  have h2 := claim_C5_extractTerms docTwoTerms ⟨"dt", "", [], Dom.nil⟩ .nil .nil .nil "" []
  have h3 := claim_C5_extractTerms docNoTerms
    ⟨"dt", "", [], Dom.elem "span" "term:spec:t" [] .nil .nil⟩
    (Dom.elem "dd" "" [] (.text "a" .nil) .nil)
    (Dom.elem "dd" "" [] (.text "b" .nil) .nil)
    (Dom.text "META" .nil) "" ["meta-info-content-wrapper"]
  exact ⟨h1.1 (by decide), (h2.2.1 (by decide)).trans (by decide), h3.2.2 (by decide)⟩

/-- Every pair in `Map.set m k v` is a pair of `m` or is `(k, v)`. -/
theorem jsSet_mem {α : Type} (m : List (String × α)) (k : String) (v : α) :
    ∀ q ∈ jsSet m k v, q ∈ m ∨ q = (k, v) := by
  intro q hq
  rw [jsSet] at hq
  by_cases h : m.any (fun p => p.1 == k) = true
  · rw [if_pos h] at hq
    obtain ⟨p, hp, hfp⟩ := List.mem_map.mp hq
    by_cases hpk : (p.1 == k) = true
    · right
      rw [← hfp, if_pos hpk]
    · left
      rw [← hfp, if_neg hpk]
      exact hp
  · rw [if_neg h] at hq
    rcases List.mem_append.mp hq with h1 | h1
    · left; exact h1
    · right; simpa using h1

/-- **C3.** On a cache miss or an expired entry, `fetchExternalSpec` returns
`null` for a non-2xx response and for a network exception, and in both
failure cases the cache is left unchanged; moreover any pair of the
post-call cache either was already in the cache or was stored by a
successful fetch and maps to the parsed term mapping of the fetched page —
never to `null`. -/
theorem claim_C3_fetch_failure (cfg : ValidatorConfig)
    (cache : List (String × CacheEntry)) (now : Nat) (url : String)
    (resp : FetchOutcome)
    (hmiss : jsGet cache url = none ∨
      ∃ e, jsGet cache url = some e ∧ cfg.cacheTimeout ≤ now - e.timestamp) :
    (∀ s, resp = FetchOutcome.httpError s →
      fetchExternalSpec cfg cache now url resp = ⟨none, cache, true⟩) ∧
    (resp = FetchOutcome.netError →
      fetchExternalSpec cfg cache now url resp = ⟨none, cache, true⟩) ∧
    (∀ q ∈ (fetchExternalSpec cfg cache now url resp).cache,
      q ∈ cache ∨ ∃ doc, resp = FetchOutcome.ok doc ∧
        q.2 = ⟨now, extractTermsFromDoc doc⟩) := by
  have hfetch : fetchExternalSpec cfg cache now url resp =
      match resp with
      | .ok doc =>
        ⟨some (extractTermsFromDoc doc),
          jsSet cache url ⟨now, extractTermsFromDoc doc⟩, true⟩
      | .httpError _ => ⟨none, cache, true⟩
      | .netError => ⟨none, cache, true⟩ := by
    rcases hmiss with h | ⟨e, he, hst⟩
    · simp only [fetchExternalSpec, h]
    · simp only [fetchExternalSpec, he, if_neg (not_lt.mpr hst)]
  refine ⟨?_, ?_, ?_⟩
  · intro s hs
    subst hs
    rw [hfetch]
  · intro hs
    subst hs
    rw [hfetch]
  · intro q hq
    rw [hfetch] at hq
    cases resp with
    | ok doc =>
      simp only at hq
      rcases jsSet_mem cache url ⟨now, extractTermsFromDoc doc⟩ q hq with h | h
      · exact Or.inl h
      · exact Or.inr ⟨doc, rfl, by rw [h]⟩
    | httpError s => exact Or.inl hq
    | netError => exact Or.inl hq

/-- **C4.** On a cache hit younger than the timeout, `fetchExternalSpec`
returns exactly the stored term mapping, issues no network request, and
leaves the cache unchanged. -/
theorem claim_C4_cache_hit (cfg : ValidatorConfig)
    (cache : List (String × CacheEntry)) (now : Nat) (url : String)
    (resp : FetchOutcome) (e : CacheEntry)
    (hget : jsGet cache url = some e)
    (hfresh : now - e.timestamp < cfg.cacheTimeout) :
    fetchExternalSpec cfg cache now url resp =
      ⟨some e.data, cache, false⟩ := by
  simp only [fetchExternalSpec, hget, if_pos hfresh]

/-- Witness for C3 at concrete inputs: a 404 on an empty cache and an
exception on a stale entry both return `null` and leave the cache alone. -/
theorem claim_C3_fetch_failure_witness :
    fetchExternalSpec VALIDATOR_CONFIG [] 100 "https://x.github.io/s/"
      (.httpError 404) = ⟨none, [], true⟩ ∧
    fetchExternalSpec VALIDATOR_CONFIG cacheOne 40000000 "https://x.github.io/s/"
      .netError = ⟨none, cacheOne, true⟩ := by
  constructor
  · exact (claim_C3_fetch_failure VALIDATOR_CONFIG [] 100 "https://x.github.io/s/"
      (.httpError 404) (Or.inl rfl)).1 404 rfl
  · exact (claim_C3_fetch_failure VALIDATOR_CONFIG cacheOne 40000000
      "https://x.github.io/s/" .netError
      (Or.inr ⟨_, rfl, by decide⟩)).2.1 rfl

/-- Witness for C4 at a concrete fresh entry. -/
theorem claim_C4_cache_hit_witness :
    fetchExternalSpec VALIDATOR_CONFIG cacheOne 200 "https://x.github.io/s/"
      .netError =
      ⟨some [("t", ⟨"c", "<dd>c</dd>", "term:s:t"⟩)], cacheOne, false⟩ := by
  exact claim_C4_cache_hit VALIDATOR_CONFIG cacheOne 200 "https://x.github.io/s/"
    .netError _ rfl (by decide)

/-- When no term span is found, the tref insertion changes nothing — for any
indicator. -/
theorem insertIntoTrefF_not_found (ind : DomNode) :
    ∀ (d : Dom), (insertIntoTrefF ind d).2 = false →
      ∀ (ind₂ : DomNode), insertIntoTrefF ind₂ d = (d, false) := by
  intro d
  induction d with
  | nil => intro _ ind₂; rfl
  | text s next ih =>
    intro h ind₂
    simp only [insertIntoTrefF] at h ⊢
    rw [ih h ind₂]
  | elem t i cls ch next ih1 ih2 =>
    intro h ind₂
    by_cases hspan : (t == "span" && cls.contains "term-external") = true
    · simp only [insertIntoTrefF, hspan, if_true] at h
      exact Bool.noConfusion h
    · simp only [insertIntoTrefF, hspan] at h ⊢
      simp only [Bool.false_eq_true, if_false] at h ⊢
      rcases hch : insertIntoTrefF ind ch with ⟨ch', fc⟩
      rw [hch] at h
      cases fc with
      | true => simp at h
      | false =>
        simp only at h
        rw [ih1 (by rw [hch]) ind₂]
        simp only
        rw [ih2 h ind₂]

/-- An appended indicator is found by the duplicate check. -/
theorem hasClassDesc_appendNode (ind : DomNode)
    (hind : ind.classes.contains indicatorClass = true) :
    ∀ (d : Dom), hasClassDesc indicatorClass (appendNode d ind) = true := by
  have hmem : indicatorClass ∈ ind.classes := by simpa using hind
  intro d
  induction d with
  | nil => simp [appendNode, consNode, hasClassDesc, hmem]
  | text s next ih => simp [appendNode, hasClassDesc, ih]
  | elem t i cls ch next ih1 ih2 => simp [appendNode, hasClassDesc, ih2]

/-- Second tref insertion is a no-op: running the insertion again (with any
indicator node) on the result returns it unchanged with the same flag. -/
theorem insertIntoTrefF_idem (ind ind₂ : DomNode)
    (hind : ind.classes.contains indicatorClass = true) :
    ∀ (d : Dom),
      insertIntoTrefF ind₂ ((insertIntoTrefF ind d).1) =
        ((insertIntoTrefF ind d).1, (insertIntoTrefF ind d).2) := by
  intro d
  induction d with
  | nil => rfl
  | text s next ih =>
    simp only [insertIntoTrefF]
    rw [ih]
  | elem t i cls ch next ih1 ih2 =>
    by_cases hspan : (t == "span" && cls.contains "term-external") = true
    · by_cases hch : hasClassDesc indicatorClass ch = true
      · have hres : insertIntoTrefF ind (Dom.elem t i cls ch next) =
            (Dom.elem t i cls ch next, true) := by
          simp only [insertIntoTrefF, hspan, if_true]
          rw [if_pos hch]
        rw [hres]
        simp only [insertIntoTrefF, hspan, if_true]
        rw [if_pos hch]
      · have hres : insertIntoTrefF ind (Dom.elem t i cls ch next) =
            (Dom.elem t i cls (appendNode ch ind) next, true) := by
          simp only [insertIntoTrefF, hspan, if_true]
          rw [if_neg hch]
        rw [hres]
        simp only [insertIntoTrefF, hspan, if_true]
        rw [if_pos (hasClassDesc_appendNode ind hind ch)]
    · simp only [insertIntoTrefF, hspan, Bool.false_eq_true, if_false]
      rcases hch : insertIntoTrefF ind ch with ⟨ch', fc⟩
      cases fc with
      | true =>
        simp only
        have hih : insertIntoTrefF ind₂ ch' = (ch', true) := by
          have := ih1
          rw [hch] at this
          exact this
        simp only [insertIntoTrefF, hspan, Bool.false_eq_true, if_false, hih]
      | false =>
        simp only
        have hch0 : insertIntoTrefF ind₂ ch = (ch, false) :=
          insertIntoTrefF_not_found ind ch (by rw [hch]) ind₂
        simp only [insertIntoTrefF, hspan, Bool.false_eq_true, if_false, hch0]
        rw [ih2]

/-- A forest with no indicator elements has no indicator-class descendant. -/
theorem countIndF_zero_no_class :
    ∀ (d : Dom), countIndF d = 0 → hasClassDesc indicatorClass d = false := by
  intro d
  induction d with
  | nil => intro _; rfl
  | text s next ih =>
    intro h
    simp only [countIndF] at h
    simp only [hasClassDesc]
    exact ih h
  | elem t i cls ch next ih1 ih2 =>
    intro h
    simp only [countIndF] at h
    rcases Bool.eq_false_or_eq_true (cls.contains indicatorClass) with hc | hc
    · rw [hc] at h
      simp at h
    · rw [hc] at h
      simp only [Bool.false_eq_true, if_false, Nat.zero_add] at h
      simp only [hasClassDesc, hc, Bool.false_or]
      rw [ih1 (by omega), ih2 (by omega)]
      rfl

/-- Appending the indicator node adds its own contribution to the count. -/
theorem countIndF_appendNode (ind : DomNode) :
    ∀ (d : Dom), countIndF (appendNode d ind) =
      countIndF d + ((if ind.classes.contains indicatorClass then 1 else 0) +
        countIndF ind.child) := by
  intro d
  induction d with
  | nil => simp [appendNode, consNode, countIndF]
  | text s next ih => simp only [appendNode, countIndF, ih]
  | elem t i cls ch next ih1 ih2 =>
    simp only [appendNode, countIndF, ih2]
    omega

/-- Inserting into a forest with no pre-existing indicator leaves exactly
one indicator element when the span was found and none otherwise. -/
theorem countIndF_insertIntoTrefF (ind : DomNode)
    (hind : ind.classes.contains indicatorClass = true)
    (hch0 : countIndF ind.child = 0) :
    ∀ (d : Dom), countIndF d = 0 →
      countIndF ((insertIntoTrefF ind d).1) =
        (if (insertIntoTrefF ind d).2 then 1 else 0) := by
  intro d
  induction d with
  | nil => intro _; rfl
  | text s next ih =>
    intro h
    simp only [countIndF] at h
    simp only [insertIntoTrefF, countIndF]
    exact ih h
  | elem t i cls ch next ih1 ih2 =>
    intro h
    simp only [countIndF] at h
    have hc : cls.contains indicatorClass = false := by
      rcases Bool.eq_false_or_eq_true (cls.contains indicatorClass) with hc | hc
      · rw [hc] at h; simp at h
      · exact hc
    rw [hc] at h
    simp only [Bool.false_eq_true, if_false, Nat.zero_add] at h
    have hcch : countIndF ch = 0 := by omega
    have hcnext : countIndF next = 0 := by omega
    by_cases hspan : (t == "span" && cls.contains "term-external") = true
    · have hnocls := countIndF_zero_no_class ch hcch
      have hres : insertIntoTrefF ind (Dom.elem t i cls ch next) =
          (Dom.elem t i cls (appendNode ch ind) next, true) := by
        simp only [insertIntoTrefF, hspan, if_true]
        rw [if_neg (by rw [hnocls]; simp)]
      rw [hres]
      simp only [countIndF, countIndF_appendNode ind ch, hc, hind, hcch, hcnext, hch0]
      simp
    · simp only [insertIntoTrefF, hspan, Bool.false_eq_true, if_false]
      rcases hch : insertIntoTrefF ind ch with ⟨ch', fc⟩
      cases fc with
      | true =>
        simp only [countIndF, hc, Bool.false_eq_true, if_false]
        have hthis := ih1 hcch
        rw [hch] at hthis
        simp only at hthis
        rw [hthis, hcnext]
        simp
      | false =>
        simp only [countIndF, hc, Bool.false_eq_true, if_false]
        have hthis := ih2 hcnext
        rw [hthis, hcch]
        simp

/-- The next element sibling of a forest without indicators does not carry
the indicator class. -/
theorem firstElem_no_indicator :
    ∀ (next : Dom) (e : DomNode), countIndF next = 0 → firstElem next = some e →
      e.classes.contains indicatorClass = false := by
  intro next
  induction next with
  | nil => intro e _ h; cases h
  | text s next ih =>
    intro e h hfe
    simp only [countIndF] at h
    exact ih e h hfe
  | elem t i cls ch next ih1 ih2 =>
    intro e h hfe
    simp only [countIndF] at h
    simp only [firstElem, Option.some.injEq] at hfe
    rcases Bool.eq_false_or_eq_true (cls.contains indicatorClass) with hc | hc
    · rw [hc] at h
      simp at h
    · rw [← hfe]
      exact hc

/-- Second xref insertion is a no-op. -/
theorem insertAfter_idem (ind ind₂ : DomNode)
    (hind : ind.classes.contains indicatorClass = true) :
    ∀ (next : Dom),
      insertIndicatorAfterElement (insertIndicatorAfterElement next ind) ind₂ =
        insertIndicatorAfterElement next ind := by
  intro next
  cases hfe : firstElem next with
  | none =>
    have h1 : insertIndicatorAfterElement next ind = consNode ind next := by
      rw [insertIndicatorAfterElement, hfe]
    rw [h1, insertIndicatorAfterElement]
    have h2 : firstElem (consNode ind next) =
        some ⟨ind.tag, ind.id, ind.classes, ind.child⟩ := rfl
    rw [h2]
    simp only [if_pos hind]
  | some e =>
    by_cases hcls : e.classes.contains indicatorClass = true
    · have h1 : insertIndicatorAfterElement next ind = next := by
        rw [insertIndicatorAfterElement, hfe]
        simp only [if_pos hcls]
      rw [h1, insertIndicatorAfterElement, hfe]
      simp only [if_pos hcls]
    · have h1 : insertIndicatorAfterElement next ind = consNode ind next := by
        rw [insertIndicatorAfterElement, hfe]
        simp only [if_neg hcls]
      rw [h1, insertIndicatorAfterElement]
      have h2 : firstElem (consNode ind next) =
          some ⟨ind.tag, ind.id, ind.classes, ind.child⟩ := rfl
      rw [h2]
      simp only [if_pos hind]

/-- One xref insertion into an indicator-free sibling forest leaves exactly
one indicator element. -/
theorem countIndF_insertAfter (ind : DomNode)
    (hind : ind.classes.contains indicatorClass = true)
    (hch0 : countIndF ind.child = 0) :
    ∀ (next : Dom), countIndF next = 0 →
      countIndF (insertIndicatorAfterElement next ind) = 1 := by
  have hmem : indicatorClass ∈ ind.classes := by simpa using hind
  intro next h
  cases hfe : firstElem next with
  | none =>
    rw [insertIndicatorAfterElement, hfe]
    simp [consNode, countIndF, hmem, hch0, h]
  | some e =>
    simp only [insertIndicatorAfterElement, hfe]
    rw [if_neg (by rw [firstElem_no_indicator next e h hfe]; simp)]
    simp [consNode, countIndF, hmem, hch0, h]

/-- **C8.** Indicator insertion is idempotent: inserting twice after the
same xref anchor, or twice into the same tref term span, leaves the DOM as
after the first insertion, with exactly one indicator-class element present
(when none pre-existed); the second call detects the existing indicator (as
next element sibling for xrefs, as a descendant of the term span for trefs)
and performs no insertion, and a tref with no term span is left unchanged. -/
theorem claim_C8_idempotent_insertion (ind ind₂ : DomNode) (next d : Dom)
    (hind : ind.classes.contains indicatorClass = true)
    (hch0 : countIndF ind.child = 0) :
    (insertIndicatorAfterElement (insertIndicatorAfterElement next ind) ind₂ =
      insertIndicatorAfterElement next ind) ∧
    (countIndF next = 0 →
      countIndF (insertIndicatorAfterElement
        (insertIndicatorAfterElement next ind) ind₂) = 1) ∧
    (insertIndicatorIntoTref (insertIndicatorIntoTref d ind) ind₂ =
      insertIndicatorIntoTref d ind) ∧
    (countIndF d = 0 → (insertIntoTrefF ind d).2 = true →
      countIndF (insertIndicatorIntoTref
        (insertIndicatorIntoTref d ind) ind₂) = 1) ∧
    ((insertIntoTrefF ind d).2 = false → insertIndicatorIntoTref d ind = d) := by
  have hidem : insertIndicatorIntoTref (insertIndicatorIntoTref d ind) ind₂ =
      insertIndicatorIntoTref d ind := by
    show (insertIntoTrefF ind₂ ((insertIntoTrefF ind d).1)).1 = _
    rw [insertIntoTrefF_idem ind ind₂ hind d]
    rfl
  refine ⟨insertAfter_idem ind ind₂ hind next, ?_, hidem, ?_, ?_⟩
  · intro h0
    rw [insertAfter_idem ind ind₂ hind next]
    exact countIndF_insertAfter ind hind hch0 next h0
  · intro h0 hfound
    rw [hidem]
    show countIndF ((insertIntoTrefF ind d).1) = 1
    rw [countIndF_insertIntoTrefF ind hind hch0 d h0, hfound]
    rfl
  · intro hnf
    show (insertIntoTrefF ind d).1 = d
    rw [insertIntoTrefF_not_found ind d hnf ind]

/-- Witness for C8 at concrete DOM values. -/
theorem claim_C8_idempotent_insertion_witness :
    insertIndicatorAfterElement (insertIndicatorAfterElement wNext wInd) wInd =
      insertIndicatorAfterElement wNext wInd ∧
    countIndF (insertIndicatorAfterElement
      (insertIndicatorAfterElement wNext wInd) wInd) = 1 ∧
    countIndF (insertIndicatorIntoTref
      (insertIndicatorIntoTref wTref wInd) wInd) = 1 := by
  have h := claim_C8_idempotent_insertion wInd wInd wNext wTref (by decide) (by decide)
  exact ⟨h.1, h.2.1 (by decide), h.2.2.2.1 (by decide) (by decide)⟩

/-- `Option.or` with a present first component ignores the second. -/
theorem getLast?_or_of_ne_nil {α : Type} (xs : List α) (y z : Option α)
    (h : xs ≠ []) : xs.getLast?.or y = xs.getLast?.or z := by
  have hs : (xs.getLast?).isSome := List.getLast?_isSome.mpr h
  obtain ⟨v, hv⟩ := Option.isSome_iff_exists.mp hs
  rw [hv]
  rfl

/-- In a file none of whose lines throws, the final on-disk content is the
write of the last matching line (or the accumulated content when no line
matches), and no error is caught. -/
theorem processFileGo_no_failure (xtrefs : List Xtref) :
    ∀ (ls : List String) (acc : Option String),
      (∀ l ∈ ls, lineAction xtrefs l ≠ some none) →
      processFileGo xtrefs ls acc =
        (((ls.filterMap (fun l => (lineAction xtrefs l).join)).getLast?).or acc,
          false) := by
  intro ls
  induction ls with
  | nil => intro acc _; rfl
  | cons l ls ih =>
    intro acc hnf
    cases hla : lineAction xtrefs l with
    | none =>
      simp only [processFileGo, hla]
      rw [ih acc (fun x hx => hnf x (List.mem_cons_of_mem l hx))]
      have hred : List.filterMap (fun l => (lineAction xtrefs l).join) (l :: ls) =
          List.filterMap (fun l => (lineAction xtrefs l).join) ls := by
        rw [List.filterMap_cons, hla]
        exact rfl
      rw [hred]
    | some o =>
      cases o with
      | none => exact absurd hla (hnf l (List.mem_cons_self l ls))
      | some out =>
        simp only [processFileGo, hla]
        rw [ih (some out) (fun x hx => hnf x (List.mem_cons_of_mem l hx))]
        have hred : List.filterMap (fun l => (lineAction xtrefs l).join) (l :: ls) =
            out :: List.filterMap (fun l => (lineAction xtrefs l).join) ls := by
          rw [List.filterMap_cons, hla]
          exact rfl
        rw [hred]
        cases hrest : ls.filterMap (fun l => (lineAction xtrefs l).join) with
        | nil => exact rfl
        | cons r t =>
          rw [List.getLast?_cons_cons]
          exact congrArg (·, false)
            (getLast?_or_of_ne_nil (r :: t) (some out) acc (by simp))

/-- **C9 (amended).** In a file whose marker lines all resolve, `prepareTref`
rewrites the file to exactly the output of the last matching line — each
successive match overwrites the whole file — and that output is the
`[[tref:...]]` match itself (not the whole line) followed by a blank line,
the regenerated-content notice, a blank line, the commit-hash annotation and
the cached content with every `[[def: ...]]:` marker removed. -/
theorem claim_C9_prepareTref (xtrefs : List Xtref) (data : String)
    (hnf : ∀ l ∈ splitLines data, lineAction xtrefs l ≠ some none) :
    (processFile xtrefs data =
      (((splitLines data).filterMap
          (fun l => (lineAction xtrefs l).join)).getLast?, false)) ∧
    (∀ (line m0 inner es t content hash : String),
      trefMatch line = some (m0, inner) →
      ((splitCharGo ',' [] inner.data).map (fun l => trimL l)).getD 0 [] = es.data →
      ((splitCharGo ',' [] inner.data).map (fun l => trimL l)).get? 1 = some t.data →
      getLocalXTrefContent xtrefs es t = some (content, hash) →
      lineAction xtrefs line =
        some (some (m0 ++ "\n\n" ++ trefNotice ++ "\n\n~ Commit Hash: " ++
          hash ++ stripDefs content))) := by
  constructor
  · rw [processFile, processFileGo_no_failure xtrefs (splitLines data) none hnf]
    rw [Option.or_none]
  · intro line m0 inner es t content hash htm hes ht hlookup
    have hlookup' : getLocalXTrefContent xtrefs ⟨es.data⟩ ⟨t.data⟩ =
        some (content, hash) := hlookup
    simp only [lineAction, htm, ht, hes, hlookup']

set_option maxRecDepth 16000 in
/-- Witness for the amended C9 at a concrete file. -/
theorem claim_C9_prepareTref_witness :
    processFile C9xtrefs C9data =
      (some ("[[tref:a,t]]" ++ "\n\n" ++ trefNotice ++ "\n\n~ Commit Hash: " ++
        "hh" ++ stripDefs "Cc [[def: x]]: y"), false) ∧
    lineAction C9xtrefs "[[tref:a,t]]" =
      some (some ("[[tref:a,t]]" ++ "\n\n" ++ trefNotice ++ "\n\n~ Commit Hash: " ++
        "hh" ++ stripDefs "Cc [[def: x]]: y")) := by
  have h := claim_C9_prepareTref C9xtrefs C9data (by decide)
  refine ⟨(h.1).trans ?_, h.2 "[[tref:a,t]]" "[[tref:a,t]]" "a,t" "a" "t"
    "Cc [[def: x]]: y" "hh" (by decide) (by decide) (by decide) (by decide)⟩
  decide

set_option maxRecDepth 16000 in
/-- C9 as literally stated is false on the code: the first line of
`C9dupData` begins with a `[[tref:...]]` marker whose exact pair has an
index entry, yet the rewritten file does not contain that marker at all —
the write for the second matching line overwrote it. -/
theorem claim_C9_counterexample :
    ("[[tref:a,t]]" ∈ splitLines C9dupData ∧
      getLocalXTrefContent C9dup "a" "t" = some ("C1", "h1")) ∧
    (processFile C9dup C9dupData).1 = some C9dupFinal ∧
    ¬ ("[[tref:a,t]]".data <:+: C9dupFinal.data) := by
  decide

/-- In a file whose first matching marker line throws (after any number of
non-matching lines), nothing is ever written. -/
theorem processFileGo_early_failure (xtrefs : List Xtref) (lbad : String)
    (rest : List String) (hbad : lineAction xtrefs lbad = some none) :
    ∀ (pre : List String), (∀ l ∈ pre, lineAction xtrefs l = none) →
      processFileGo xtrefs (pre ++ lbad :: rest) none = (none, true) := by
  intro pre
  induction pre with
  | nil =>
    intro _
    simp only [List.nil_append, processFileGo, hbad]
  | cons p ps ih =>
    intro hpre
    have hp : lineAction xtrefs p = none := hpre p (List.mem_cons_self p ps)
    simp only [List.cons_append, processFileGo, hp]
    exact ih (fun l hl => hpre l (List.mem_cons_of_mem p hl))

/-- **C10 (amended).** For a markdown file containing a `[[tref:...]]`
marker line whose pair has no index entry, `prepareTref` leaves the file
unchanged provided no earlier line performed a rewrite: the `null` lookup
throws before any write, the per-file handler catches the error, and the
remaining files are still processed (an earlier matching line would already
have overwritten the file before the exception, see the counterexample). -/
theorem claim_C10_prepareTref_error (xtrefs : List Xtref) (data : String)
    (pre rest : List String) (lbad : String)
    (hsplit : splitLines data = pre ++ lbad :: rest)
    (hpre : ∀ l ∈ pre, lineAction xtrefs l = none)
    (hbad : lineAction xtrefs lbad = some none) :
    processFile xtrefs data = (none, true) ∧
    ∀ (fs1 fs2 : List (String × String)) (f : String × String),
      prepareTref xtrefs (fs1 ++ f :: fs2) =
        prepareTref xtrefs fs1 ++
          (f.1, processFile xtrefs f.2) :: prepareTref xtrefs fs2 := by
  constructor
  · rw [processFile, hsplit]
    exact processFileGo_early_failure xtrefs lbad rest hbad pre hpre
  · intro fs1 fs2 f
    simp [prepareTref]

set_option maxRecDepth 16000 in
/-- C10 as literally stated is false on the code: `C10data` contains a
marker line whose pair has no index entry, yet the file does not stay
unchanged — the earlier matching line rewrote it before the exception. -/
theorem claim_C10_counterexample :
    ("[[tref:b,u]]" ∈ splitLines C10data ∧
      getLocalXTrefContent C10xtrefs "b" "u" = none) ∧
    (processFile C10xtrefs C10data).1 ≠ none ∧
    (processFile C10xtrefs C10data).2 = true := by
  decide

set_option maxRecDepth 16000 in
/-- Witness for the amended C10 at a concrete file list. -/
theorem claim_C10_prepareTref_error_witness :
    processFile C10xtrefs "intro\n[[tref:b,u]]\n[[tref:a,t]]" = (none, true) ∧
    prepareTref C10xtrefs
        ([("a.md", "x")] ++ ("b.md", "[[tref:b,u]]") :: [("c.md", "y")]) =
      prepareTref C10xtrefs [("a.md", "x")] ++
        ("b.md", processFile C10xtrefs "[[tref:b,u]]") ::
          prepareTref C10xtrefs [("c.md", "y")] := by
  have h := claim_C10_prepareTref_error C10xtrefs "intro\n[[tref:b,u]]\n[[tref:a,t]]"
    ["intro"] ["[[tref:a,t]]"] "[[tref:b,u]]" (by decide) (by decide) (by decide)
  exact ⟨h.1, h.2 [("a.md", "x")] [("c.md", "y")] ("b.md", "[[tref:b,u]]")⟩

theorem asciiWs_cases {c : Char} (h : asciiWs c = true) :
    c = ' ' ∨ c = '\t' ∨ c = '\n' ∨ c = '\x0b' ∨ c = '\x0c' ∨ c = '\r' := by
  simpa [asciiWs] using h

/-- The facts about one ASCII whitespace character that the stage lemmas
need. -/
theorem asciiWs_props {w : Char} (h : asciiWs w = true) :
    jsWs w = true ∧ zeroWidth w = false ∧ w.toLower = w ∧ w ≠ '<' ∧ w ≠ '>' := by
  rcases asciiWs_cases h with rfl | rfl | rfl | rfl | rfl | rfl <;>
    exact ⟨by decide, by decide, by decide, by decide, by decide⟩

theorem char_toNat_ofNatAux (n : Nat) (h : n.isValidChar) :
    (Char.ofNatAux n h).toNat = n := by
  simp [Char.ofNatAux, Char.toNat, UInt32.toNat]

theorem char_toNat_ofNat (n : Nat) (h : n.isValidChar) :
    (Char.ofNat n).toNat = n := by
  rw [Char.ofNat, dif_pos h, char_toNat_ofNatAux]

/-- `toLower` can only produce a non-letter character from that character
itself. -/
theorem toLower_eq_special {c x : Char}
    (hx : x.toNat < 65 ∨ 122 < x.toNat ∨ (90 < x.toNat ∧ x.toNat < 97)) :
    c.toLower = x ↔ c = x := by
  constructor
  · intro h
    rw [Char.toLower] at h
    split_ifs at h with hu
    · have h2 := congrArg Char.toNat h
      rw [char_toNat_ofNat _ (Or.inl (by omega))] at h2
      omega
    · exact h
  · intro h
    subst h
    rw [Char.toLower, if_neg (by omega)]

/-- A case-variant of `<` is `<` itself, likewise for `>`. -/
theorem toLower_eq_angle {c c' : Char} (h : c.toLower = c'.toLower) :
    (c = '<' ↔ c' = '<') ∧ (c = '>' ↔ c' = '>') := by
  have hlt : ∀ {d : Char}, d.toLower = '<' ↔ d = '<' := fun {d} =>
    toLower_eq_special (by decide)
  have hgt : ∀ {d : Char}, d.toLower = '>' ↔ d = '>' := fun {d} =>
    toLower_eq_special (by decide)
  constructor
  · constructor
    · intro hc; subst hc
      exact hlt.mp (by rw [← h]; decide)
    · intro hc; subst hc
      exact hlt.mp (by rw [h]; decide)
  · constructor
    · intro hc; subst hc
      exact hgt.mp (by rw [← h]; decide)
    · intro hc; subst hc
      exact hgt.mp (by rw [h]; decide)

/-- The text extraction processes concatenations chunk by chunk. -/
theorem extractTextGo_append :
    ∀ (a : List Char) (st : Bool) (b : List Char),
      extractTextGo st (a ++ b) =
        extractTextGo st a ++ extractTextGo (extractStateGo st a) b := by
  intro a
  induction a with
  | nil => intro st b; simp [extractTextGo, extractStateGo]
  | cons c cs ih =>
    intro st b
    cases st with
    | false =>
      by_cases h : c = '<' <;> simp [extractTextGo, extractStateGo, h, ih]
    | true =>
      by_cases h : c = '>' <;> simp [extractTextGo, extractStateGo, h, ih]

/-- Deleting a duplicated whitespace character does not change the collapsed
string. -/
theorem collapseWsGo_dup (w w' : Char) (hw : jsWs w = true) (hw' : jsWs w' = true) :
    ∀ (P Q : List Char) (st : Bool),
      collapseWsGo st (P ++ w :: w' :: Q) = collapseWsGo st (P ++ w :: Q) := by
  intro P
  induction P with
  | nil =>
    intro Q st
    cases st <;> simp [collapseWsGo, hw, hw']
  | cons p P' ih =>
    intro Q st
    by_cases hp : jsWs p = true
    · cases st <;> simp [collapseWsGo, hp, ih]
    · cases st <;> simp [collapseWsGo, hp, ih]

/-- Swapping one whitespace character for another does not change the
collapsed string. -/
theorem collapseWsGo_swap (w w' : Char) (hw : jsWs w = true) (hw' : jsWs w' = true) :
    ∀ (P Q : List Char) (st : Bool),
      collapseWsGo st (P ++ w :: Q) = collapseWsGo st (P ++ w' :: Q) := by
  intro P
  induction P with
  | nil =>
    intro Q st
    cases st <;> simp [collapseWsGo, hw, hw']
  | cons p P' ih =>
    intro Q st
    by_cases hp : jsWs p = true
    · cases st <;> simp [collapseWsGo, hp, ih]
    · cases st <;> simp [collapseWsGo, hp, ih]

/-- The normalization pipeline only sees the lowercased input. -/
theorem normalizeTextL_eq_of_lower_eq {s t : List Char} (h : lowerL s = lowerL t) :
    normalizeTextL s = normalizeTextL t := by
  rw [normalizeTextL, normalizeTextL, h]

theorem normalizeTextL_ws_dup (X Y : List Char) (w w' : Char)
    (hw : asciiWs w = true) (hw' : asciiWs w' = true) :
    normalizeTextL (X ++ w :: w' :: Y) = normalizeTextL (X ++ w :: Y) := by
  obtain ⟨hjw, hzw, hlw, -, -⟩ := asciiWs_props hw
  obtain ⟨hjw', hzw', hlw', -, -⟩ := asciiWs_props hw'
  have e1 : removeZW (lowerL (X ++ w :: w' :: Y)) =
      removeZW (lowerL X) ++ w :: w' :: removeZW (lowerL Y) := by
    simp [lowerL, removeZW, List.map_append, List.filter_append, hlw, hlw', hzw, hzw']
  have e2 : removeZW (lowerL (X ++ w :: Y)) =
      removeZW (lowerL X) ++ w :: removeZW (lowerL Y) := by
    simp [lowerL, removeZW, List.map_append, List.filter_append, hlw, hzw]
  rw [normalizeTextL, normalizeTextL, e1, e2, collapseWsL, collapseWsL,
    collapseWsGo_dup w w' hjw hjw']

theorem normalizeTextL_ws_swap (X Y : List Char) (w w' : Char)
    (hw : asciiWs w = true) (hw' : asciiWs w' = true) :
    normalizeTextL (X ++ w :: Y) = normalizeTextL (X ++ w' :: Y) := by
  obtain ⟨hjw, hzw, hlw, -, -⟩ := asciiWs_props hw
  obtain ⟨hjw', hzw', hlw', -, -⟩ := asciiWs_props hw'
  have e1 : removeZW (lowerL (X ++ w :: Y)) =
      removeZW (lowerL X) ++ w :: removeZW (lowerL Y) := by
    simp [lowerL, removeZW, List.map_append, List.filter_append, hlw, hzw]
  have e2 : removeZW (lowerL (X ++ w' :: Y)) =
      removeZW (lowerL X) ++ w' :: removeZW (lowerL Y) := by
    simp [lowerL, removeZW, List.map_append, List.filter_append, hlw', hzw']
  rw [normalizeTextL, normalizeTextL, e1, e2, collapseWsL, collapseWsL,
    collapseWsGo_swap w w' hjw hjw']

/-- Main invariance: equivalent inputs normalize to the same text. -/
theorem caseWsEqv_normalize {a b : List Char} (h : CaseWsEqv a b) :
    normalizeTextL (extractTextL a) = normalizeTextL (extractTextL b) := by
  induction h with
  | refl s => rfl
  | symm _ ih => exact ih.symm
  | trans _ _ ih1 ih2 => exact ih1.trans ih2
  | caseStep l₁ l₂ c c' hcc =>
    rw [extractTextL, extractTextL, extractTextGo_append l₁ false (c :: l₂),
      extractTextGo_append l₁ false (c' :: l₂)]
    cases hst : extractStateGo false l₁ with
    | false =>
      by_cases hlt : c = '<'
      · have hlt' : c' = '<' := (toLower_eq_angle hcc).1.mp hlt
        subst hlt; subst hlt'
        rfl
      · have hlt' : ¬ c' = '<' := fun hc => hlt ((toLower_eq_angle hcc).1.mpr hc)
        simp only [extractTextGo, if_neg hlt, if_neg hlt']
        apply normalizeTextL_eq_of_lower_eq
        simp [lowerL, List.map_append, hcc]
    | true =>
      by_cases hgt : c = '>'
      · have hgt' : c' = '>' := (toLower_eq_angle hcc).2.mp hgt
        subst hgt; subst hgt'
        rfl
      · have hgt' : ¬ c' = '>' := fun hc => hgt ((toLower_eq_angle hcc).2.mpr hc)
        simp only [extractTextGo, if_neg hgt, if_neg hgt']
  | wsDup l₁ l₂ w w' hw hw' =>
    obtain ⟨-, -, -, hwlt, hwgt⟩ := asciiWs_props hw
    obtain ⟨-, -, -, hwlt', hwgt'⟩ := asciiWs_props hw'
    rw [extractTextL, extractTextL, extractTextGo_append l₁ false (w :: w' :: l₂),
      extractTextGo_append l₁ false (w :: l₂)]
    cases hst : extractStateGo false l₁ with
    | false =>
      simp only [extractTextGo, if_neg hwlt, if_neg hwlt']
      exact normalizeTextL_ws_dup _ _ w w' hw hw'
    | true =>
      simp only [extractTextGo, if_neg hwgt, if_neg hwgt']
  | wsSwap l₁ l₂ w w' hw hw' =>
    obtain ⟨-, -, -, hwlt, hwgt⟩ := asciiWs_props hw
    obtain ⟨-, -, -, hwlt', hwgt'⟩ := asciiWs_props hw'
    rw [extractTextL, extractTextL, extractTextGo_append l₁ false (w :: l₂),
      extractTextGo_append l₁ false (w' :: l₂)]
    cases hst : extractStateGo false l₁ with
    | false =>
      simp only [extractTextGo, if_neg hwlt, if_neg hwlt']
      exact normalizeTextL_ws_swap _ _ w w' hw hw'
    | true =>
      simp only [extractTextGo, if_neg hwgt, if_neg hwgt']

/-- Related inputs are empty together. -/
theorem caseWsEqv_nil_iff {a b : List Char} (h : CaseWsEqv a b) :
    a = [] ↔ b = [] := by
  induction h with
  | refl s => exact Iff.rfl
  | symm _ ih => exact ih.symm
  | trans _ _ ih1 ih2 => exact ih1.trans ih2
  | caseStep l₁ l₂ c c' _ => simp
  | wsDup l₁ l₂ w w' _ _ => simp
  | wsSwap l₁ l₂ w w' _ _ => simp

/-- Equivalent HTML inputs have equal `normalizeContent`. -/
theorem normalizeContent_eq_of_caseWsEqv {a b : String}
    (h : CaseWsEqv a.data b.data) : normalizeContent a = normalizeContent b := by
  by_cases ha : a = ""
  · subst ha
    have hb : b.data = [] := (caseWsEqv_nil_iff h).mp rfl
    have hb' : b = "" := by
      cases b with
      | mk d => rw [show (String.mk d).data = d from rfl] at hb; rw [hb]
    subst hb'
    rfl
  · have hb : ¬ b = "" := by
      intro hb0
      apply ha
      have : a.data = [] := (caseWsEqv_nil_iff h).mpr (by rw [hb0])
      cases a with
      | mk d => rw [show (String.mk d).data = d from rfl] at this; rw [this]
    rw [normalizeContent, normalizeContent, if_neg ha, if_neg hb]
    exact congrArg String.mk (caseWsEqv_normalize h)

/-- **C7.** HTML inputs differing only in letter case and in the extent of
whitespace runs normalize to identical strings, hence their similarity is
exactly `1`, which is never below the threshold, so such a pair is never
classified as Changed. -/
theorem claim_C7_case_ws_invariance (a b : String) (h : CaseWsEqv a.data b.data) :
    normalizeContent a = normalizeContent b ∧
    calculateSimilarity (normalizeContent a) (normalizeContent b) = 1 ∧
    ¬ (calculateSimilarity (normalizeContent a) (normalizeContent b) <
        VALIDATOR_CONFIG.similarityThreshold) ∧
    (∀ (liveData : List (String × Option TermMap)) (x : Xtref) (m : TermMap)
        (t : LiveTerm),
      jsGet liveData x.ghPageUrl = some (some m) →
      jsGet m (lowerStr x.term) = some t →
      CaseWsEqv x.content.data t.rawContent.data →
      ∀ (old new : String) (sim : ℚ),
        validateXref VALIDATOR_CONFIG liveData (some x) ≠
          some (.changed old new sim)) := by
  have hnorm := normalizeContent_eq_of_caseWsEqv h
  have hsim : calculateSimilarity (normalizeContent a) (normalizeContent b) = 1 := by
    rw [calculateSimilarity, if_pos hnorm]
  refine ⟨hnorm, hsim, ?_, ?_⟩
  · rw [hsim]
    show ¬ ((1 : ℚ) < VALIDATOR_CONFIG.similarityThreshold)
    rw [show VALIDATOR_CONFIG.similarityThreshold = 95 / 100 from rfl]
    norm_num
  · intro liveData x m t hm ht hxt old new sim
    by_cases hurl : x.ghPageUrl = ""
    · simp only [validateXref, if_pos hurl]
      exact fun hc => Option.noConfusion hc
    · have hx := normalizeContent_eq_of_caseWsEqv hxt
      have hsim1 : calculateSimilarity (normalizeContent x.content)
          (normalizeContent t.rawContent) = 1 := by
        rw [calculateSimilarity, if_pos hx]
      simp only [validateXref, if_neg hurl, hm, ht, hsim1]
      have hth : ¬ ((1 : ℚ) < VALIDATOR_CONFIG.similarityThreshold) := by
        rw [show VALIDATOR_CONFIG.similarityThreshold = 95 / 100 from rfl]
        norm_num
      rw [if_neg hth, show VALIDATOR_CONFIG.showValidIndicators = false from rfl]
      simp

/-- Witness for C7: `"Hello  World"` and `"hello world"` are equivalent and
normalize identically. -/
theorem claim_C7_case_ws_invariance_witness :
    normalizeContent "Hello  World" = normalizeContent "hello world" ∧
    calculateSimilarity (normalizeContent "Hello  World")
      (normalizeContent "hello world") = 1 := by
  have h1 : CaseWsEqv "Hello  World".data "Hello World".data :=
    CaseWsEqv.wsDup "Hello".data "World".data ' ' ' ' (by decide) (by decide)
  have h2 : CaseWsEqv "Hello World".data "hello World".data :=
    CaseWsEqv.caseStep [] "ello World".data 'H' 'h' (by decide)
  have h3 : CaseWsEqv "hello World".data "hello world".data :=
    CaseWsEqv.caseStep "hello ".data "orld".data 'W' 'w' (by decide)
  have h := claim_C7_case_ws_invariance "Hello  World" "hello world"
    ((h1.trans h2).trans h3)
  exact ⟨h.1, h.2.1⟩

end SpecUpT
